import Mathlib

/-!
Verification of the bridge v1.3 -> v1.4 syntax-migration script
(src/scripts/migrate-1.4.py).

Text is modelled as `List Char`.  The three rewriting passes of
`migrate_file` are embedded as executable functions:

* `migrateVersion` models `content.replace('version 1.3', 'version 1.4')`:
  left-to-right replacement of non-overlapping occurrences.

* `migrateExtend` models
  `re.sub(r'^(\s*)[Ee]xtend\s+(\S+)\s+as\s+(\S+)(\s*\x7b)?', replace_extend,
  content, flags=re.MULTILINE)`.  The scanner walks the text position by
  position keeping track of whether the position is a line start (position 0
  or just after a newline, which is where `^` matches under MULTILINE); at a
  line start it attempts the pattern, which is deterministic: each greedy
  piece is a maximal run and no backtracking can recover from a failure,
  because whitespace and non-whitespace runs partition the text.

* `migrateStrings` models
  `re.sub(r'(["\x27])[Ee]xtend\s+(\S+)\s+as\s+(\S+)(.*?["\x27])', ...)`.
  Here backtracking is real: the greedy `(\S+)` for the name is tried from
  the longest run downwards, and for each candidate the lazy `.*?["\x27]`
  looks for the nearest closing quote with no newline before it
  (`.` does not match a newline).  `fitNameRev` implements exactly that
  search order.

Whitespace is the ASCII part of the regex class `\s`
(the corpus the script runs on is ASCII).
-/

namespace Bridge

/-- ASCII whitespace, the characters matched by the regex class backslash-s
on ASCII text. -/
def isSpace (c : Char) : Bool :=
  c == ' ' || c == '\t' || c == '\n' || c == '\r' || c == '\x0b' || c == '\x0c'

/-- Characters matched by the regex class backslash-S (non-whitespace). -/
def nonWs (c : Char) : Bool := !(isSpace c)

def v13 : List Char := "version 1.3".data

def v14 : List Char := "version 1.4".data

/-- One pass of `str.replace('version 1.3', 'version 1.4')`: left-to-right,
non-overlapping.  Fuel-indexed so that it is structural; `migrateVersion`
supplies fuel equal to the length of the text, which is always enough since
every step consumes at least one character. -/
def replaceVersion : Nat → List Char → List Char
  | 0, s => s
  | _ + 1, [] => []
  | n + 1, c :: cs =>
    if v13.isPrefixOf (c :: cs) then v14 ++ replaceVersion n ((c :: cs).drop 11)
    else c :: replaceVersion n cs

/-- Whether the text contains an occurrence of `version 1.3`. -/
def hasV13 : List Char → Bool
  | [] => false
  | c :: cs => v13.isPrefixOf (c :: cs) || hasV13 cs

/-- Whether the text contains an occurrence of `version 1.4`. -/
def hasV14 : List Char → Bool
  | [] => false
  | c :: cs => v14.isPrefixOf (c :: cs) || hasV14 cs

/-- `[Ee]xtend`: the keyword with only its first letter case-insensitive.
Returns the text after the keyword. -/
def stripKeyword (s : List Char) : Option (List Char) :=
  if "extend".data.isPrefixOf s || "Extend".data.isPrefixOf s then some (s.drop 6)
  else none

/-- The literal `as`. -/
def stripAs (s : List Char) : Option (List Char) :=
  if "as".data.isPrefixOf s then some (s.drop 2) else none

/-- The optional group 4 of the declaration pattern: maximal whitespace run
followed by an opening brace.  Returns the captured group (empty when the
group does not match, as `m.group(4) or ''` does) and the remaining text. -/
def parseBrace (s : List Char) : List Char × List Char :=
  match s.dropWhile isSpace with
  | '\x7b' :: r => (s.takeWhile isSpace ++ ['\x7b'], r)
  | _ => ([], s)

/-- Attempt of the declaration pattern at one position (the MULTILINE `^` is
handled by the caller).  Returns the captured groups
(`prefix`, `source`, `name`, `suffix`) and the text after the match. -/
def tryMatch2 (s : List Char) :
    Option (List Char × List Char × List Char × List Char × List Char) :=
  let pre := s.takeWhile isSpace
  match stripKeyword (s.dropWhile isSpace) with
  | none => none
  | some s2 =>
    if (s2.takeWhile isSpace).isEmpty then none else
    let s3 := s2.dropWhile isSpace
    let source := s3.takeWhile nonWs
    if source.isEmpty then none else
    let s4 := s3.dropWhile nonWs
    if (s4.takeWhile isSpace).isEmpty then none else
    match stripAs (s4.dropWhile isSpace) with
    | none => none
    | some s5 =>
      if (s5.takeWhile isSpace).isEmpty then none else
      let s6 := s5.dropWhile isSpace
      let name := s6.takeWhile nonWs
      if name.isEmpty then none else
      let s7 := s6.dropWhile nonWs
      let br := parseBrace s7
      some (pre, source, name, br.1, br.2)

/-- The replacement function `replace_extend` of the script:
`f"\x7bprefix\x7dtool \x7bname\x7d from \x7bsource\x7d\x7bsuffix\x7d"`. -/
def replace_extend (pre source name suf : List Char) : List Char :=
  pre ++ "tool ".data ++ name ++ " from ".data ++ source ++ suf

/-- The MULTILINE substitution scan: at every position that is a line start
(position 0 or just after a newline) the declaration pattern is attempted;
on a match the replacement is emitted and scanning resumes after the match
(the last matched character is never a newline, so the position after a
match is not a line start).  Fuel-indexed; one unit per emitted block. -/
def scan2 : Nat → Bool → List Char → List Char
  | 0, _, s => s
  | _ + 1, _, [] => []
  | n + 1, atStart, c :: cs =>
    if atStart then
      match tryMatch2 (c :: cs) with
      | some (pre, source, name, suf, rem) =>
        replace_extend pre source name suf ++ scan2 n false rem
      | none => c :: scan2 n (c == '\n') cs
    else c :: scan2 n (c == '\n') cs

/-- The lazy `.*?["\x27]` of the quoted-string pattern: scan forward for the
nearest quote character; `.` does not match newlines, so a newline (or the
end of the text) before any quote means failure.  Returns the consumed text
(closing quote included) and the remainder. -/
def findClose : List Char → Option (List Char × List Char)
  | [] => none
  | c :: cs =>
    if c == '\"' || c == '\'' then some ([c], cs)
    else if c == '\n' then none
    else
      match findClose cs with
      | some (r, rem) => some (c :: r, rem)
      | none => none

/-- Greedy backtracking for the name group `(\S+)` followed by the lazy
`.*?["\x27]`: the longest candidate (the full non-whitespace run) is tried
first; on failure the last character of the candidate is given back to the
lazy part.  The first argument is the reversed remaining candidate. -/
def fitNameRev : List Char → List Char → Option (List Char × List Char × List Char)
  | [], _ => none
  | c :: rs, after =>
    match findClose after with
    | some (rest, rem) => some ((c :: rs).reverse, rest, rem)
    | none => fitNameRev rs (c :: after)

/-- Attempt of the quoted-string pattern just after an opening quote.
Returns the groups (`source`, `name`, `rest`) and the text after the match. -/
def tryMatch3 (s : List Char) :
    Option (List Char × List Char × List Char × List Char) :=
  match stripKeyword s with
  | none => none
  | some s1 =>
    if (s1.takeWhile isSpace).isEmpty then none else
    let s2 := s1.dropWhile isSpace
    let source := s2.takeWhile nonWs
    if source.isEmpty then none else
    let s3 := s2.dropWhile nonWs
    if (s3.takeWhile isSpace).isEmpty then none else
    match stripAs (s3.dropWhile isSpace) with
    | none => none
    | some s4 =>
      if (s4.takeWhile isSpace).isEmpty then none else
      let s5 := s4.dropWhile isSpace
      let run := s5.takeWhile nonWs
      if run.isEmpty then none else
      match fitNameRev run.reverse (s5.dropWhile nonWs) with
      | none => none
      | some (name, rest, rem) => some (source, name, rest, rem)

/-- The replacement function `replace_extend_in_string` of the script:
`f'\x7bquote\x7dtool \x7bname\x7d from \x7bsource\x7d\x7brest\x7d'`. -/
def replace_extend_in_string (quote : Char) (source name rest : List Char) :
    List Char :=
  quote :: ("tool ".data ++ name ++ " from ".data ++ source ++ rest)

/-- The quoted-string substitution scan (no anchors): the pattern starts with
a quote character, so it is attempted wherever one stands; on a match the
replacement is emitted and scanning resumes after the match. -/
def scan3 : Nat → List Char → List Char
  | 0, s => s
  | _ + 1, [] => []
  | n + 1, c :: cs =>
    if c == '\"' || c == '\'' then
      match tryMatch3 cs with
      | some (source, name, rest, rem) =>
        replace_extend_in_string c source name rest ++ scan3 n rem
      | none => c :: scan3 n cs
    else c :: scan3 n cs

/-- Pass 1 of `migrate_file`. -/
def migrateVersion (s : List Char) : List Char := replaceVersion s.length s

/-- Pass 2 of `migrate_file` (position 0 is a line start). -/
def migrateExtend (s : List Char) : List Char := scan2 s.length true s

/-- Pass 3 of `migrate_file`. -/
def migrateStrings (s : List Char) : List Char := scan3 s.length s

/-- The full content transformation of `migrate_file`: the three passes in
program order. -/
def migrateText (s : List Char) : List Char :=
  migrateStrings (migrateExtend (migrateVersion s))

/-! ## The driver loop

The module-level loop iterates over the hard-coded `files` list; for each
path it checks existence, runs `migrate_file` (read, transform, write back
only when the content changed) and prints one report line.  The file system
is modelled as a partial map from paths to contents. -/

def FS : Type := String → Option (List Char)

/-- Per-path result of the loop, for reporting. -/
inductive Outcome
  | migrated
  | unchanged
  | notFound
deriving DecidableEq

/-- The exact report line printed for a path:
`"  migrated: ..."`, `"  no change: ..."` or `"  NOT FOUND: ..."`. -/
def lineFor : Outcome → String → String
  | .migrated, p => "  migrated: " ++ p
  | .unchanged, p => "  no change: " ++ p
  | .notFound, p => "  NOT FOUND: " ++ p

/-- Writing a file: `open(filepath, 'w')` replaces the full content. -/
def writeFS (fs : FS) (p : String) (c : List Char) : FS :=
  fun q => if q = p then some c else fs q

/-- The driver loop over a path list: returns the printed report lines, the
per-path outcomes (in processing order) and the final file system. -/
def runPaths (fs : FS) : List String → List String × List (String × Outcome) × FS
  | [] => ([], [], fs)
  | p :: ps =>
    match fs p with
    | none =>
      let r := runPaths fs ps
      (lineFor .notFound p :: r.1, (p, .notFound) :: r.2.1, r.2.2)
    | some content =>
      if migrateText content = content then
        let r := runPaths fs ps
        (lineFor .unchanged p :: r.1, (p, .unchanged) :: r.2.1, r.2.2)
      else
        let r := runPaths (writeFS fs p (migrateText content)) ps
        (lineFor .migrated p :: r.1, (p, .migrated) :: r.2.1, r.2.2)

/-- The hard-coded path list of the script, in source order. -/
def files : List String :=
  [ "test/bridge-format.test.ts",
    "test/tool-features.test.ts",
    "test/resilience.test.ts",
    "test/scheduling.test.ts",
    "test/builtin-tools.test.ts",
    "test/force-wire.test.ts",
    "test/chained.test.ts",
    "test/email.test.ts",
    "test/executeGraph.test.ts",
    "test/property-search.bridge",
    "test/http-executor.test.ts",
    "examples/weather-api/Weather.bridge",
    "examples/builtin-tools/builtin-tools.bridge" ]

/-- Running the whole script on a file system. -/
def runDriver (fs : FS) : List String × List (String × Outcome) × FS :=
  runPaths fs files

/-! ## Input families for the universal statements

The following definitions only describe families of input texts; they model
no part of the program.  A document is a list of lines, each terminated by
a newline: either a declaration in 1.3 form (indentation, the keyword in
either accepted capitalisation, whitespace runs, source and name tokens,
and the optional trailing whitespace-plus-brace in `t7`), or a passive
line, given by its first character and the remaining characters, that the
declaration pattern cannot match at the line start. -/

inductive LineSpec
  | decl (k ind w1 w2 w3 source name t7 : List Char)
  | passive (c : Char) (u : List Char)

/-- The text of one line (without its terminating newline). -/
def renderLine : LineSpec → List Char
  | .decl k ind w1 w2 w3 source name t7 =>
      ind ++ (k ++ (w1 ++ (source ++ (w2 ++ ('a' :: 's' ::
        (w3 ++ (name ++ t7)))))))
  | .passive c u => c :: u

/-- What the declaration pass turns one line into. -/
def rewriteLine : LineSpec → List Char
  | .decl _ ind _ _ _ source name t7 =>
      ind ++ ("tool ".data ++ (name ++ (" from ".data ++ (source ++ t7))))
  | .passive c u => c :: u

/-- A document: every line followed by a newline. -/
def renderDoc : List LineSpec → List Char
  | [] => []
  | l :: ls => renderLine l ++ ('\n' :: renderDoc ls)

def rewriteDoc : List LineSpec → List Char
  | [] => []
  | l :: ls => rewriteLine l ++ ('\n' :: rewriteDoc ls)

/-- Well-formedness of a line: a declaration has one of the two accepted
keyword spellings, whitespace runs where the pattern requires them,
non-whitespace tokens, and a trailing part that is empty or whitespace
followed by a brace; a passive line starts with a character that is not
whitespace, not either keyword initial (so the pattern cannot fire at the
line start), and not a brace (so it cannot feed the optional brace group of
the preceding line), and contains no newline. -/
def WFLine : LineSpec → Prop
  | .decl k ind w1 w2 w3 source name t7 =>
      (k = "extend".data ∨ k = "Extend".data) ∧
      (∀ c ∈ ind, isSpace c = true) ∧
      (w1 ≠ [] ∧ ∀ c ∈ w1, isSpace c = true) ∧
      (w2 ≠ [] ∧ ∀ c ∈ w2, isSpace c = true) ∧
      (w3 ≠ [] ∧ ∀ c ∈ w3, isSpace c = true) ∧
      (source ≠ [] ∧ ∀ c ∈ source, nonWs c = true) ∧
      (name ≠ [] ∧ ∀ c ∈ name, nonWs c = true) ∧
      (t7 = [] ∨ ∃ wb, t7 = wb ++ ['\x7b'] ∧ wb ≠ [] ∧ ∀ c ∈ wb, isSpace c = true)
  | .passive c u =>
      isSpace c = false ∧ c ≠ 'e' ∧ c ≠ 'E' ∧ c ≠ '\x7b' ∧ '\n' ∉ u

/-- Fuel consumed by the declaration pass on one line and its newline. -/
def lineFuel : LineSpec → Nat
  | .decl _ _ _ _ _ _ _ _ => 2
  | .passive _ u => u.length + 2

/-- One already-migrated declaration, `tool <name> from <source>`, with an
optional trailing space-and-brace. -/
def toolDecl (name source : List Char) (br : Bool) : List Char :=
  "tool ".data ++ (name ++ (" from ".data ++ (source ++
    (if br then " \x7b".data else []))))

/-- A stack of already-migrated declarations, one per line. -/
def migratedDecls : List (List Char × List Char × Bool) → List Char
  | [] => []
  | (name, source, br) :: ds => toolDecl name source br ++ ('\n' :: migratedDecls ds)

/-- An already-migrated declaration, viewed as a passive line of the
declaration pass: it starts with the letter `t`, which the pattern cannot
match. -/
def asPassiveLine (d : List Char × List Char × Bool) : LineSpec :=
  .passive 't' ("ool ".data ++ (d.1 ++ (" from ".data ++
    (d.2.1 ++ (if d.2.2 then " \x7b".data else [])))))

/-- An already-migrated file: the `version 1.4` header line followed by
the migrated declarations, every line passive for the declaration pass. -/
def asPassiveDoc (ds : List (List Char × List Char × Bool)) : List LineSpec :=
  LineSpec.passive 'v' "ersion 1.4".data :: ds.map asPassiveLine

/-! ## Helper lemmas -/

/-- A scan of pass 2 that is not at a line start and never meets a newline
leaves the text unchanged (the declaration pattern is anchored). -/
theorem scan2_false_id : ∀ (n : Nat) (s : List Char), '\n' ∉ s →
    scan2 n false s = s := by
  intro n s
  induction s generalizing n with
  | nil => intro _; cases n <;> rfl
  | cons c cs ih =>
    intro h
    cases n with
    | zero => rfl
    | succ n =>
      have hc : c ≠ '\n' := fun he => h (he ▸ List.mem_cons_self c cs)
      have hb : (c == '\n') = false := by
        simp only [beq_eq_false_iff_ne, ne_eq]; exact hc
      simp only [scan2, if_neg (by simp : ¬(false = true)), hb]
      exact congrArg (c :: ·) (ih n (fun hm => h (List.mem_cons_of_mem c hm)))

/-- Pass 3 leaves quote-free text unchanged (its pattern starts with a
quote character). -/
theorem scan3_id_of_no_quote : ∀ (n : Nat) (s : List Char),
    (∀ c ∈ s, c ≠ '\"' ∧ c ≠ '\'') → scan3 n s = s := by
  intro n s
  induction s generalizing n with
  | nil => intro _; cases n <;> rfl
  | cons c cs ih =>
    intro h
    cases n with
    | zero => rfl
    | succ n =>
      have hc := h c (List.mem_cons_self c cs)
      have hb : (c == '\"' || c == '\'') = false := by
        simp only [Bool.or_eq_false_iff, beq_eq_false_iff_ne, ne_eq]
        exact ⟨hc.1, hc.2⟩
      simp only [scan3, hb, if_neg (by simp : ¬(false = true))]
      exact congrArg (c :: ·) (ih n (fun d hd => h d (List.mem_cons_of_mem c hd)))

/-- Pass 1 leaves text without `version 1.3` unchanged. -/
theorem replaceVersion_id_of_no_v13 : ∀ (n : Nat) (s : List Char),
    hasV13 s = false → replaceVersion n s = s := by
  intro n s
  induction s generalizing n with
  | nil => intro _; cases n <;> rfl
  | cons c cs ih =>
    intro h
    cases n with
    | zero => rfl
    | succ n =>
      simp only [hasV13, Bool.or_eq_false_iff] at h
      simp only [replaceVersion, h.1, if_neg (by simp : ¬(false = true))]
      exact congrArg (c :: ·) (ih n h.2)

/-- No occurrence of `version 1.3` begins inside an emitted `version 1.4`
block: the two strings disagree before any alignment can succeed. -/
theorem hasV13_v14_append (t : List Char) : hasV13 (v14 ++ t) = hasV13 t := rfl

/-- No character of the tail of `version 1.3` is a letter v. -/
theorem v13_tail_ne_v : ∀ j, j < 11 → 1 ≤ j → v13.getD j 'z' ≠ 'v' := by decide

/-- A proper nonempty suffix of `version 1.3` that is not a prefix of the
text is still not a prefix after replacement: the replacement only inserts
`version 1.4` blocks, which such a suffix cannot enter. -/
theorem suffix_no_new_match : ∀ (n : Nat) (s : List Char) (j : Nat),
    s.length ≤ n → 1 ≤ j → j ≤ 10 →
    (v13.drop j).isPrefixOf s = false →
    (v13.drop j).isPrefixOf (replaceVersion n s) = false := by
  intro n
  induction n with
  | zero =>
    intro s j _ _ _ hpre
    simpa only [replaceVersion] using hpre
  | succ n ih =>
    intro s j hlen h1 h10 hpre
    have hj : j < v13.length := by rw [show v13.length = 11 from rfl]; omega
    have hdj : v13.drop j = v13.getD j 'z' :: v13.drop (j + 1) := by
      rw [List.getD_eq_getElem v13 'z' hj]
      exact List.drop_eq_getElem_cons hj
    match s with
    | [] => simpa only [replaceVersion] using hpre
    | c :: cs =>
      by_cases hv : v13.isPrefixOf (c :: cs) = true
      · simp only [replaceVersion, if_pos hv]
        have hne : (v13.getD j 'z' == 'v') = false := by
          simp only [beq_eq_false_iff_ne, ne_eq]
          exact v13_tail_ne_v j (by omega) h1
        rw [hdj]
        show (v13.getD j 'z' :: v13.drop (j + 1)).isPrefixOf
          ('v' :: ("ersion 1.4".data ++ replaceVersion n ((c :: cs).drop 11))) = false
        simp only [List.isPrefixOf, hne, Bool.false_and]
      · simp only [replaceVersion, if_neg hv]
        rw [hdj] at hpre ⊢
        simp only [List.isPrefixOf] at hpre ⊢
        cases hb : (v13.getD j 'z' == c) with
        | false => simp only [Bool.false_and]
        | true =>
          simp only [hb, Bool.true_and] at hpre ⊢
          by_cases hj10 : j = 10
          · subst hj10
            simp only [show v13.drop 11 = [] from rfl, List.isPrefixOf] at hpre
            exact absurd hpre (by decide)
          · have hcs : cs.length ≤ n := by
              simp only [List.length_cons] at hlen; omega
            exact ih cs (j + 1) hcs (by omega) (by omega) hpre

/-- After a full pass of the version replacement no occurrence of
`version 1.3` remains. -/
theorem replaceVersion_no_v13 : ∀ (n : Nat) (s : List Char),
    s.length ≤ n → hasV13 (replaceVersion n s) = false := by
  intro n
  induction n with
  | zero =>
    intro s h
    have : s = [] := List.eq_nil_of_length_eq_zero (Nat.le_zero.mp h)
    subst this; rfl
  | succ n ih =>
    intro s hlen
    match s with
    | [] => rfl
    | c :: cs =>
      by_cases hv : v13.isPrefixOf (c :: cs) = true
      · simp only [replaceVersion, if_pos hv]
        rw [hasV13_v14_append]
        apply ih
        have h11 : 11 ≤ (c :: cs).length := by
          have hp := (List.isPrefixOf_iff_prefix.mp hv).length_le
          simpa only [show v13.length = 11 from rfl] using hp
        simp only [List.length_drop, List.length_cons] at h11 hlen ⊢
        omega
      · simp only [replaceVersion, if_neg hv]
        have hR : hasV13 (replaceVersion n cs) = false :=
          ih cs (by simp only [List.length_cons] at hlen; omega)
        simp only [hasV13, hR, Bool.or_false]
        show (('v' == c) && (v13.drop 1).isPrefixOf (replaceVersion n cs)) = false
        cases hb : ('v' == c) with
        | false => simp only [Bool.false_and]
        | true =>
          simp only [Bool.true_and]
          have hc : c = 'v' := (beq_iff_eq.mp hb).symm
          subst hc
          have hpre : (v13.drop 1).isPrefixOf cs = false := Bool.eq_false_iff.mpr hv
          exact suffix_no_new_match n cs 1
            (by simp only [List.length_cons] at hlen; omega) le_rfl (by omega) hpre

theorem takeWhile_append_of_all {p : Char → Bool} :
    ∀ {l₁ l₂ : List Char}, (∀ c ∈ l₁, p c = true) →
    (l₁ ++ l₂).takeWhile p = l₁ ++ l₂.takeWhile p := by
  intro l₁
  induction l₁ with
  | nil => intro l₂ _; rfl
  | cons c cs ih =>
    intro l₂ h
    have hc : p c = true := h c (List.mem_cons_self c cs)
    simp only [List.cons_append, List.takeWhile_cons, hc, if_pos rfl]
    exact congrArg (c :: ·) (ih (fun d hd => h d (List.mem_cons_of_mem c hd)))

theorem dropWhile_append_of_all {p : Char → Bool} :
    ∀ {l₁ l₂ : List Char}, (∀ c ∈ l₁, p c = true) →
    (l₁ ++ l₂).dropWhile p = l₂.dropWhile p := by
  intro l₁
  induction l₁ with
  | nil => intro l₂ _; rfl
  | cons c cs ih =>
    intro l₂ h
    have hc : p c = true := h c (List.mem_cons_self c cs)
    simp only [List.cons_append, List.dropWhile_cons, hc, if_pos rfl]
    exact ih (fun d hd => h d (List.mem_cons_of_mem c hd))

/-- A character of the regex class backslash-S is not a newline. -/
theorem nonWs_ne_newline {c : Char} (h : nonWs c = true) : c ≠ '\n' := by
  intro he; subst he; exact absurd h (by decide)

theorem scan2_nil : ∀ (n : Nat) (b : Bool), scan2 n b [] = [] := by
  intro n b; cases n <;> rfl

theorem isPrefixOf_append_self (l t : List Char) : l.isPrefixOf (l ++ t) = true :=
  List.isPrefixOf_iff_prefix.mpr (List.prefix_append l t)

/-- Either keyword spelling strips to the text after it. -/
theorem stripKeyword_keyword {k : List Char}
    (hk : k = "extend".data ∨ k = "Extend".data) (s : List Char) :
    stripKeyword (k ++ s) = some s := by
  rcases hk with h | h <;> subst h <;> unfold stripKeyword
  · rw [isPrefixOf_append_self, Bool.true_or, if_pos rfl,
      List.drop_left' (show ("extend".data).length = 6 from rfl)]
  · rw [isPrefixOf_append_self, Bool.or_true, if_pos rfl,
      List.drop_left' (show ("Extend".data).length = 6 from rfl)]

/-- The declaration pattern fails at a position whose character is neither
whitespace (so the prefix group is empty) nor a keyword initial. -/
theorem tryMatch2_none_head {c : Char} (X : List Char)
    (h1 : isSpace c = false) (h2 : c ≠ 'e') (h3 : c ≠ 'E') :
    tryMatch2 (c :: X) = none := by
  have hA : "extend".data.isPrefixOf (c :: X) = false := by
    show (('e' :: "xtend".data).isPrefixOf (c :: X)) = false
    simp only [List.isPrefixOf]
    rw [show ('e' == c) = false from beq_eq_false_iff_ne.mpr (fun h => h2 h.symm)]
    simp
  have hB : "Extend".data.isPrefixOf (c :: X) = false := by
    show (('E' :: "xtend".data).isPrefixOf (c :: X)) = false
    simp only [List.isPrefixOf]
    rw [show ('E' == c) = false from beq_eq_false_iff_ne.mpr (fun h => h3 h.symm)]
    simp
  have hd : (c :: X).dropWhile isSpace = c :: X := by
    simp only [List.dropWhile_cons, h1, Bool.false_eq_true, if_false]
  have hs : stripKeyword (c :: X) = none := by
    unfold stripKeyword
    rw [hA, hB]
    simp
  unfold tryMatch2
  rw [hd, hs]

/-- Unfolding one successful step of the declaration scan. -/
theorem scan2_match {pre source name suf rem : List Char} (m : Nat)
    (s : List Char) (hs : s ≠ [])
    (h : tryMatch2 s = some (pre, source, name, suf, rem)) :
    scan2 (m + 1) true s = replace_extend pre source name suf ++ scan2 m false rem := by
  obtain ⟨c, cs, rfl⟩ := List.exists_cons_of_ne_nil hs
  simp only [scan2, h, if_true]

/-- The declaration scan walks verbatim over newline-free text when it is
not at a line start. -/
theorem scan2_false_append : ∀ (u : List Char), '\n' ∉ u →
    ∀ (n : Nat) (rest : List Char),
    scan2 (n + u.length) false (u ++ rest) = u ++ scan2 n false rest := by
  intro u
  induction u with
  | nil => intro _ n rest; rfl
  | cons c cs ih =>
    intro hu n rest
    have hc : (c == '\n') = false :=
      beq_eq_false_iff_ne.mpr (fun h => hu (h ▸ List.mem_cons_self c cs))
    show scan2 ((n + cs.length) + 1) false (c :: (cs ++ rest)) = _
    simp only [scan2, hc, Bool.false_eq_true, if_false]
    exact congrArg (c :: ·) (ih (fun hm => hu (List.mem_cons_of_mem c hm)) n rest)

theorem scan2_newline_step : ∀ (n : Nat) (X : List Char),
    scan2 (n + 1) false ('\n' :: X) = '\n' :: scan2 n true X :=
  fun _ _ => rfl

/-- The optional group and the remainder reassemble the parsed text. -/
theorem parseBrace_glue (t : List Char) : (parseBrace t).1 ++ (parseBrace t).2 = t := by
  unfold parseBrace
  split
  · next r heq =>
    show (t.takeWhile isSpace ++ ['\x7b']) ++ r = t
    rw [List.append_assoc, List.singleton_append, ← heq,
      List.takeWhile_append_dropWhile]
  · rfl

/-- When the first non-whitespace character ahead is not a brace (or there
is none), the optional group is empty and nothing is consumed. -/
theorem parseBrace_no_brace (t : List Char)
    (h : t.dropWhile isSpace = [] ∨
      ∃ d D, t.dropWhile isSpace = d :: D ∧ d ≠ '\x7b') :
    parseBrace t = ([], t) := by
  unfold parseBrace
  rcases h with h | ⟨d, D, h, hd⟩
  · rw [h]
  · rw [h]
    split
    · next r heq =>
      injection heq with h1 _
      exact absurd h1 hd
    · rfl

/-- A whitespace run followed by a brace is captured whole. -/
theorem parseBrace_brace (wb r : List Char) (hw : ∀ c ∈ wb, isSpace c = true) :
    parseBrace (wb ++ ('\x7b' :: r)) = (wb ++ ['\x7b'], r) := by
  unfold parseBrace
  rw [dropWhile_append_of_all hw, takeWhile_append_of_all hw]
  rw [show ('\x7b' :: r).dropWhile isSpace = '\x7b' :: r from by
    simp [List.dropWhile_cons, show isSpace '\x7b' = false from rfl]]
  rw [show ('\x7b' :: r).takeWhile isSpace = [] from by
    simp [List.takeWhile_cons, show isSpace '\x7b' = false from rfl]]
  simp

/-- Full characterisation of a successful declaration match at a line
start: leading whitespace, the keyword in either accepted capitalisation,
whitespace runs, a source token, `as` (written as its two characters), a
name token, and a remainder that is empty or starts with whitespace; the
groups are exactly those pieces, with the optional whitespace-plus-brace
group read off the remainder by `parseBrace`. -/
theorem tryMatch2_spec (k ind w1 w2 w3 source name T : List Char)
    (hk : k = "extend".data ∨ k = "Extend".data)
    (hind : ∀ c ∈ ind, isSpace c = true)
    (hw1 : w1 ≠ []) (hw1s : ∀ c ∈ w1, isSpace c = true)
    (hw2 : w2 ≠ []) (hw2s : ∀ c ∈ w2, isSpace c = true)
    (hw3 : w3 ≠ []) (hw3s : ∀ c ∈ w3, isSpace c = true)
    (hsrc : source ≠ []) (hsrcs : ∀ c ∈ source, nonWs c = true)
    (hname : name ≠ []) (hnames : ∀ c ∈ name, nonWs c = true)
    (hT : T = [] ∨ ∃ d D, T = d :: D ∧ isSpace d = true) :
    tryMatch2 (ind ++ (k ++ (w1 ++ (source ++ (w2 ++ ('a' :: 's' ::
        (w3 ++ (name ++ T))))))))
      = some (ind, source, name, (parseBrace T).1, (parseBrace T).2) := by
  obtain ⟨sc, source', rfl⟩ := List.exists_cons_of_ne_nil hsrc
  obtain ⟨nc, name', rfl⟩ := List.exists_cons_of_ne_nil hname
  obtain ⟨w2c, w2', rfl⟩ := List.exists_cons_of_ne_nil hw2
  have hscs : isSpace sc = false := by
    have h := hsrcs sc (List.mem_cons_self sc source')
    simpa only [nonWs, Bool.not_eq_true'] using h
  have hncs : isSpace nc = false := by
    have h := hnames nc (List.mem_cons_self nc name')
    simpa only [nonWs, Bool.not_eq_true'] using h
  have hw2cs : isSpace w2c = true := hw2s w2c (List.mem_cons_self w2c w2')
  have hw2cn : nonWs w2c = false := by
    simp only [nonWs, hw2cs, Bool.not_true]
  have hkhead : ∀ X : List Char, (k ++ X).takeWhile isSpace = [] := by
    intro X
    rcases hk with h | h <;> subst h <;> rfl
  have hkhead2 : ∀ X : List Char, (k ++ X).dropWhile isSpace = k ++ X := by
    intro X
    rcases hk with h | h <;> subst h <;> rfl
  have ha1 : ∀ X : List Char, ((sc :: source') ++ X).takeWhile isSpace = [] := by
    intro X
    simp only [List.cons_append, List.takeWhile_cons, hscs, Bool.false_eq_true, if_false]
  have hb1 : ∀ X : List Char, ((w2c :: w2') ++ X).takeWhile nonWs = [] := by
    intro X
    simp only [List.cons_append, List.takeWhile_cons, hw2cn, Bool.false_eq_true, if_false]
  have hb2 : ∀ X : List Char, ((w2c :: w2') ++ X).dropWhile nonWs
      = (w2c :: w2') ++ X := by
    intro X
    simp only [List.cons_append, List.dropWhile_cons, hw2cn, Bool.false_eq_true, if_false]
  have hc1 : ∀ X : List Char, ('a' :: 's' :: X).takeWhile isSpace = [] := by
    intro X
    simp only [List.takeWhile_cons, show isSpace 'a' = false from rfl,
      Bool.false_eq_true, if_false]
  have hd1 : ∀ X : List Char, ((nc :: name') ++ X).takeWhile isSpace = [] := by
    intro X
    simp only [List.cons_append, List.takeWhile_cons, hncs, Bool.false_eq_true, if_false]
  have hd2 : ∀ X : List Char, ((nc :: name') ++ X).dropWhile isSpace
      = (nc :: name') ++ X := by
    intro X
    simp only [List.cons_append, List.dropWhile_cons, hncs, Bool.false_eq_true, if_false]
  have hAs : ∀ X : List Char, stripAs ('a' :: 's' :: X) = some X := by
    intro X
    unfold stripAs
    rw [if_pos]
    · rfl
    · show ("as".data.isPrefixOf ('a' :: 's' :: X)) = true
      rw [show "as".data = ['a', 's'] from rfl]
      simp [List.isPrefixOf]
  have hrunT : (nc :: name' ++ T).takeWhile nonWs = nc :: name' := by
    rcases hT with h | ⟨d, D, h, hd⟩ <;> subst h
    · rw [show nc :: name' ++ ([] : List Char) = (nc :: name') ++ [] from rfl,
        takeWhile_append_of_all hnames]
      simp
    · rw [show nc :: name' ++ d :: D = (nc :: name') ++ (d :: D) from rfl,
        takeWhile_append_of_all hnames]
      simp only [List.takeWhile_cons, show nonWs d = false from by
        simp only [nonWs, hd, Bool.not_true], Bool.false_eq_true, if_false,
        List.append_nil]
  have hremT : (nc :: name' ++ T).dropWhile nonWs = T := by
    rcases hT with h | ⟨d, D, h, hd⟩ <;> subst h
    · rw [show nc :: name' ++ ([] : List Char) = (nc :: name') ++ [] from rfl,
        dropWhile_append_of_all hnames]
      rfl
    · rw [show nc :: name' ++ d :: D = (nc :: name') ++ (d :: D) from rfl,
        dropWhile_append_of_all hnames]
      simp only [List.dropWhile_cons, show nonWs d = false from by
        simp only [nonWs, hd, Bool.not_true], Bool.false_eq_true, if_false]
  unfold tryMatch2
  rw [takeWhile_append_of_all hind, hkhead, List.append_nil,
    dropWhile_append_of_all hind, hkhead2, stripKeyword_keyword hk]
  simp only [takeWhile_append_of_all hw1s, ha1, List.append_nil,
    List.isEmpty_eq_false.mpr hw1, Bool.false_eq_true, if_false,
    dropWhile_append_of_all hw1s]
  rw [show ((sc :: source') ++ ((w2c :: w2') ++ ('a' :: 's' ::
      (w3 ++ ((nc :: name') ++ T))))).dropWhile isSpace
      = (sc :: source') ++ ((w2c :: w2') ++ ('a' :: 's' ::
        (w3 ++ ((nc :: name') ++ T)))) from by
    simp only [List.cons_append, List.dropWhile_cons, hscs, Bool.false_eq_true, if_false]]
  rw [show ((sc :: source') ++ ((w2c :: w2') ++ ('a' :: 's' ::
      (w3 ++ ((nc :: name') ++ T))))).takeWhile nonWs = sc :: source' from by
    rw [takeWhile_append_of_all hsrcs, hb1, List.append_nil]]
  rw [show ((sc :: source') ++ ((w2c :: w2') ++ ('a' :: 's' ::
      (w3 ++ ((nc :: name') ++ T))))).dropWhile nonWs
      = (w2c :: w2') ++ ('a' :: 's' :: (w3 ++ ((nc :: name') ++ T))) from by
    rw [dropWhile_append_of_all hsrcs, hb2]]
  simp only [List.isEmpty_cons, Bool.false_eq_true, if_false,
    takeWhile_append_of_all hw2s, hc1, List.append_nil,
    dropWhile_append_of_all hw2s,
    show ('a' :: 's' :: (w3 ++ ((nc :: name') ++ T))).dropWhile isSpace
      = 'a' :: 's' :: (w3 ++ ((nc :: name') ++ T)) from rfl,
    hAs, takeWhile_append_of_all hw3s, hd1,
    List.isEmpty_eq_false.mpr hw3,
    dropWhile_append_of_all hw3s, hd2]
  simp only [hrunT, hremT, List.isEmpty_cons, Bool.false_eq_true, if_false]

/-- The declaration pass on one matched line with an arbitrary same-line
remainder after the name token: the matched span is replaced, the inter
token whitespace collapses to single spaces, and the remainder is emitted
verbatim (when it starts with whitespace and a brace, that part is carried
inside the matched group and still lands unchanged in the output). -/
theorem extendLine_rewrite (k ind w1 w2 w3 source name t : List Char)
    (hk : k = "extend".data ∨ k = "Extend".data)
    (hind : ∀ c ∈ ind, isSpace c = true)
    (hw1 : w1 ≠ []) (hw1s : ∀ c ∈ w1, isSpace c = true)
    (hw2 : w2 ≠ []) (hw2s : ∀ c ∈ w2, isSpace c = true)
    (hw3 : w3 ≠ []) (hw3s : ∀ c ∈ w3, isSpace c = true)
    (hsrc : source ≠ []) (hsrcs : ∀ c ∈ source, nonWs c = true)
    (hname : name ≠ []) (hnames : ∀ c ∈ name, nonWs c = true)
    (ht : t = [] ∨ ∃ d D, t = d :: D ∧ isSpace d = true)
    (htn : '\n' ∉ t) :
    migrateExtend (ind ++ (k ++ (w1 ++ (source ++ (w2 ++ ('a' :: 's' ::
        (w3 ++ (name ++ t))))))))
      = ind ++ ("tool ".data ++ (name ++ (" from ".data ++ (source ++ t)))) := by
  have hspec := tryMatch2_spec k ind w1 w2 w3 source name t hk hind hw1 hw1s
    hw2 hw2s hw3 hw3s hsrc hsrcs hname hnames ht
  have hglue := parseBrace_glue t
  have hrem : '\n' ∉ (parseBrace t).2 :=
    fun hx => htn (hglue ▸ List.mem_append_right _ hx)
  have hlen : 6 ≤ (ind ++ (k ++ (w1 ++ (source ++ (w2 ++ ('a' :: 's' ::
      (w3 ++ (name ++ t)))))))).length := by
    rcases hk with rfl | rfl <;> simp [List.length_append] <;> omega
  have hne : (ind ++ (k ++ (w1 ++ (source ++ (w2 ++ ('a' :: 's' ::
      (w3 ++ (name ++ t)))))))) ≠ [] := by
    intro he
    rw [he] at hlen
    simp at hlen
  show scan2 (ind ++ (k ++ (w1 ++ (source ++ (w2 ++ ('a' :: 's' ::
      (w3 ++ (name ++ t)))))))).length true _ = _
  obtain ⟨m, hm⟩ : ∃ m, (ind ++ (k ++ (w1 ++ (source ++ (w2 ++ ('a' :: 's' ::
      (w3 ++ (name ++ t)))))))).length = m + 1 :=
    ⟨(ind ++ (k ++ (w1 ++ (source ++ (w2 ++ ('a' :: 's' ::
      (w3 ++ (name ++ t)))))))).length - 1, by omega⟩
  rw [hm, scan2_match m _ hne hspec, scan2_false_id m _ hrem]
  simp only [replace_extend, List.append_assoc]
  rw [hglue]

/-- A well-formed document never offers a brace as its first
non-whitespace character, so the optional brace group of a declaration on
the previous line cannot reach into it. -/
theorem renderDoc_head_not_brace : ∀ (ls : List LineSpec), (∀ l ∈ ls, WFLine l) →
    (renderDoc ls).dropWhile isSpace = [] ∨
    ∃ d D, (renderDoc ls).dropWhile isSpace = d :: D ∧ d ≠ '\x7b' := by
  intro ls h
  match ls with
  | [] => exact Or.inl rfl
  | .passive c u :: ls' =>
    have hw : WFLine (.passive c u) := h _ (List.mem_cons_self _ _)
    obtain ⟨h1, _, _, h4, _⟩ := hw
    refine Or.inr ⟨c, u ++ ('\n' :: renderDoc ls'), ?_, h4⟩
    show ((c :: u) ++ ('\n' :: renderDoc ls')).dropWhile isSpace = _
    simp only [List.cons_append, List.dropWhile_cons, h1, Bool.false_eq_true, if_false]
  | .decl k ind w1 w2 w3 source name t7 :: ls' =>
    have hw : WFLine (.decl k ind w1 w2 w3 source name t7) := h _ (List.mem_cons_self _ _)
    obtain ⟨hk, hind, _⟩ := hw
    rcases hk with rfl | rfl
    · refine Or.inr ⟨'e', ("xtend".data ++ (w1 ++ (source ++ (w2 ++ ('a' :: 's' ::
        (w3 ++ (name ++ t7))))))) ++ ('\n' :: renderDoc ls'), ?_, by decide⟩
      show ((ind ++ ("extend".data ++ (w1 ++ (source ++ (w2 ++ ('a' :: 's' ::
        (w3 ++ (name ++ t7)))))))) ++ ('\n' :: renderDoc ls')).dropWhile isSpace = _
      rw [List.append_assoc, dropWhile_append_of_all hind]
      rfl
    · refine Or.inr ⟨'E', ("xtend".data ++ (w1 ++ (source ++ (w2 ++ ('a' :: 's' ::
        (w3 ++ (name ++ t7))))))) ++ ('\n' :: renderDoc ls'), ?_, by decide⟩
      show ((ind ++ ("Extend".data ++ (w1 ++ (source ++ (w2 ++ ('a' :: 's' ::
        (w3 ++ (name ++ t7)))))))) ++ ('\n' :: renderDoc ls')).dropWhile isSpace = _
      rw [List.append_assoc, dropWhile_append_of_all hind]
      rfl

theorem lineFuel_le (l : LineSpec) (h : WFLine l) :
    lineFuel l ≤ (renderLine l).length + 1 := by
  cases l with
  | passive c u => simp [lineFuel, renderLine]
  | decl k ind w1 w2 w3 source name t7 =>
    obtain ⟨hk, _⟩ := h
    have h6 : k.length = 6 := by rcases hk with rfl | rfl <;> rfl
    simp only [lineFuel, renderLine, List.length_append, List.length_cons, h6]
    omega

/-- One line of a well-formed document, with its newline: a declaration
line is rewritten by the pattern (its optional brace group never reaching
past the newline), a passive line is emitted verbatim even when it
contains the keyword mid-line, and scanning resumes at the next line
start. -/
theorem scan2_line_step (l : LineSpec) (hl : WFLine l) (ls' : List LineSpec)
    (h' : ∀ x ∈ ls', WFLine x) (n : Nat) :
    scan2 (n + lineFuel l) true (renderLine l ++ ('\n' :: renderDoc ls'))
      = rewriteLine l ++ ('\n' :: scan2 n true (renderDoc ls')) := by
  cases l with
  | passive c u =>
    obtain ⟨h1, h2, h3, _, h5⟩ := hl
    have hnone := tryMatch2_none_head (u ++ ('\n' :: renderDoc ls')) h1 h2 h3
    have hcnl : (c == '\n') = false :=
      beq_eq_false_iff_ne.mpr (fun he => by rw [he] at h1; exact absurd h1 (by decide))
    show scan2 (n + (u.length + 2)) true ((c :: u) ++ ('\n' :: renderDoc ls'))
      = (c :: u) ++ ('\n' :: scan2 n true (renderDoc ls'))
    rw [show n + (u.length + 2) = (((n + 1) + u.length) + 1) from by omega]
    simp only [List.cons_append]
    simp only [scan2, hnone, hcnl, Bool.false_eq_true, if_false, if_true]
    rw [scan2_false_append u h5 (n + 1) ('\n' :: renderDoc ls'), scan2_newline_step]
  | decl k ind w1 w2 w3 source name t7 =>
    obtain ⟨hk, hind, ⟨hw1, hw1s⟩, ⟨hw2, hw2s⟩, ⟨hw3, hw3s⟩,
      ⟨hsrc, hsrcs⟩, ⟨hname, hnames⟩, ht7⟩ := hl
    show scan2 (n + 2) true
        ((ind ++ (k ++ (w1 ++ (source ++ (w2 ++ ('a' :: 's' ::
          (w3 ++ (name ++ t7)))))))) ++ ('\n' :: renderDoc ls'))
      = (ind ++ ("tool ".data ++ (name ++ (" from ".data ++ (source ++ t7)))))
          ++ ('\n' :: scan2 n true (renderDoc ls'))
    rcases ht7 with rfl | ⟨wb, rfl, hwb, hwbs⟩
    · have hpb : parseBrace ('\n' :: renderDoc ls') = ([], '\n' :: renderDoc ls') := by
        apply parseBrace_no_brace
        rw [show ('\n' :: renderDoc ls').dropWhile isSpace
            = (renderDoc ls').dropWhile isSpace from by
          simp [List.dropWhile_cons, show isSpace '\n' = true from rfl]]
        exact renderDoc_head_not_brace ls' h'
      have hspec := tryMatch2_spec k ind w1 w2 w3 source name ('\n' :: renderDoc ls')
        hk hind hw1 hw1s hw2 hw2s hw3 hw3s hsrc hsrcs hname hnames
        (Or.inr ⟨'\n', renderDoc ls', rfl, rfl⟩)
      rw [hpb] at hspec
      have hne : (ind ++ (k ++ (w1 ++ (source ++ (w2 ++ ('a' :: 's' ::
          (w3 ++ (name ++ ('\n' :: renderDoc ls'))))))))) ≠ [] := by
        intro he
        rw [he, show tryMatch2 ([] : List Char) = none from rfl] at hspec
        exact Option.noConfusion hspec
      simp only [List.append_assoc, List.cons_append, List.nil_append, List.append_nil]
      rw [show n + 2 = (n + 1) + 1 from rfl,
        scan2_match (n + 1) _ hne hspec, scan2_newline_step]
      simp [replace_extend, List.append_assoc]
    · obtain ⟨wc, wb', rfl⟩ := List.exists_cons_of_ne_nil hwb
      have hpb : parseBrace ((wc :: wb') ++ ('\x7b' :: ('\n' :: renderDoc ls')))
          = ((wc :: wb') ++ ['\x7b'], '\n' :: renderDoc ls') :=
        parseBrace_brace (wc :: wb') _ hwbs
      have hspec := tryMatch2_spec k ind w1 w2 w3 source name
        ((wc :: wb') ++ ('\x7b' :: ('\n' :: renderDoc ls')))
        hk hind hw1 hw1s hw2 hw2s hw3 hw3s hsrc hsrcs hname hnames
        (Or.inr ⟨wc, wb' ++ ('\x7b' :: ('\n' :: renderDoc ls')), rfl,
          hwbs wc (List.mem_cons_self wc wb')⟩)
      rw [hpb] at hspec
      simp only [List.append_assoc, List.cons_append, List.singleton_append,
        List.nil_append] at hspec
      have hne : (ind ++ (k ++ (w1 ++ (source ++ (w2 ++ ('a' :: 's' ::
          (w3 ++ (name ++ (wc :: (wb' ++ ('\x7b' :: ('\n' :: renderDoc ls')))))))))))) ≠ [] := by
        intro he
        rw [he, show tryMatch2 ([] : List Char) = none from rfl] at hspec
        exact Option.noConfusion hspec
      simp only [List.append_assoc, List.cons_append, List.singleton_append,
        List.nil_append]
      rw [show n + 2 = (n + 1) + 1 from rfl,
        scan2_match (n + 1) _ hne hspec, scan2_newline_step]
      simp [replace_extend, List.append_assoc]

/-- The declaration pass over a whole well-formed document: every
declaration line is rewritten, every passive line is kept verbatim. -/
theorem scan2_renderDoc : ∀ (ls : List LineSpec), (∀ l ∈ ls, WFLine l) →
    ∀ m, (renderDoc ls).length ≤ m → scan2 m true (renderDoc ls) = rewriteDoc ls := by
  intro ls
  induction ls with
  | nil =>
    intro _ m _
    exact scan2_nil m true
  | cons l ls ih =>
    intro h m hm
    have hl : WFLine l := h l (List.mem_cons_self l ls)
    have h' : ∀ x ∈ ls, WFLine x := fun x hx => h x (List.mem_cons_of_mem l hx)
    have hfuel := lineFuel_le l hl
    have hlen : (renderDoc (l :: ls)).length
        = (renderLine l).length + (1 + (renderDoc ls).length) := by
      simp [renderDoc, List.length_append]
      omega
    show scan2 m true (renderLine l ++ ('\n' :: renderDoc ls))
      = rewriteLine l ++ ('\n' :: rewriteDoc ls)
    rw [show m = (m - lineFuel l) + lineFuel l from by omega]
    rw [scan2_line_step l hl ls h' (m - lineFuel l)]
    rw [ih h' (m - lineFuel l) (by omega)]

theorem space_beq_false {c : Char} (h : nonWs c = true) : (' ' == c) = false := by
  cases hb : (' ' == c)
  · rfl
  · exfalso
    have he : ' ' = c := beq_iff_eq.mp hb
    rw [← he] at h
    exact absurd h (by decide)

/-- A proper tail of `version 1.3` (cut inside the word `version` or just
before its space) is never a prefix of a non-whitespace token followed by
a rest on which all such tails already fail: the space at index 7 of the
needle cannot land inside the token. -/
theorem v13_mid_no_prefix (rest : List Char)
    (hrest : ∀ i, 1 ≤ i → i ≤ 7 → (v13.drop i).isPrefixOf rest = false) :
    ∀ (tok : List Char), (∀ c ∈ tok, nonWs c = true) →
    ∀ j, 1 ≤ j → j ≤ 7 → (v13.drop j).isPrefixOf (tok ++ rest) = false := by
  intro tok
  induction tok with
  | nil => intro _ j h1 h7; exact hrest j h1 h7
  | cons c tok' ih =>
    intro hnw j h1 h7
    have hc : nonWs c = true := hnw c (List.mem_cons_self c tok')
    have htok' : ∀ x ∈ tok', nonWs x = true :=
      fun x hx => hnw x (List.mem_cons_of_mem c hx)
    interval_cases j
    · show (('e' == c) && (v13.drop 2).isPrefixOf (tok' ++ rest)) = false
      cases hb : ('e' == c)
      · rfl
      · exact ih htok' 2 (by omega) (by omega)
    · show (('r' == c) && (v13.drop 3).isPrefixOf (tok' ++ rest)) = false
      cases hb : ('r' == c)
      · rfl
      · exact ih htok' 3 (by omega) (by omega)
    · show (('s' == c) && (v13.drop 4).isPrefixOf (tok' ++ rest)) = false
      cases hb : ('s' == c)
      · rfl
      · exact ih htok' 4 (by omega) (by omega)
    · show (('i' == c) && (v13.drop 5).isPrefixOf (tok' ++ rest)) = false
      cases hb : ('i' == c)
      · rfl
      · exact ih htok' 5 (by omega) (by omega)
    · show (('o' == c) && (v13.drop 6).isPrefixOf (tok' ++ rest)) = false
      cases hb : ('o' == c)
      · rfl
      · exact ih htok' 6 (by omega) (by omega)
    · show (('n' == c) && (v13.drop 7).isPrefixOf (tok' ++ rest)) = false
      cases hb : ('n' == c)
      · rfl
      · exact ih htok' 7 (by omega) (by omega)
    · show ((' ' == c) && (v13.drop 8).isPrefixOf (tok' ++ rest)) = false
      rw [space_beq_false hc]
      rfl

/-- Prepending a non-whitespace token creates no `version 1.3` occurrence
when the rest neither holds one nor continues one started in the token. -/
theorem hasV13_token_append (rest : List Char)
    (hrest : ∀ i, 1 ≤ i → i ≤ 7 → (v13.drop i).isPrefixOf rest = false)
    (h0 : hasV13 rest = false) :
    ∀ (tok : List Char), (∀ c ∈ tok, nonWs c = true) →
    hasV13 (tok ++ rest) = false := by
  intro tok
  induction tok with
  | nil => intro _; exact h0
  | cons c tok' ih =>
    intro htok
    have htok' : ∀ x ∈ tok', nonWs x = true :=
      fun x hx => htok x (List.mem_cons_of_mem c hx)
    show (v13.isPrefixOf (c :: (tok' ++ rest)) || hasV13 (tok' ++ rest)) = false
    rw [ih htok', Bool.or_false]
    show (('v' == c) && (v13.drop 1).isPrefixOf (tok' ++ rest)) = false
    cases hb : ('v' == c)
    · rfl
    · exact v13_mid_no_prefix rest hrest tok' htok' 1 (by omega) (by omega)

theorem hasV13_newline_peel (X : List Char) : hasV13 ('\n' :: X) = hasV13 X := rfl

theorem hasV13_tool_peel (X : List Char) :
    hasV13 ("tool ".data ++ X) = hasV13 X := rfl

theorem hasV13_from_peel (X : List Char) :
    hasV13 (" from ".data ++ X) = hasV13 X := rfl

theorem hasV13_brace_peel (X : List Char) :
    hasV13 (" \x7b".data ++ X) = hasV13 X := rfl

theorem hasV13_v14line_peel (X : List Char) :
    hasV13 ("version 1.4\n".data ++ X) = hasV13 X := rfl

/-- A stack of already-migrated declarations holds no `version 1.3`
occurrence: the needle's inner space cannot align with any of the line's
whitespace positions. -/
theorem hasV13_migratedDecls : ∀ (ds : List (List Char × List Char × Bool)),
    (∀ d ∈ ds, (∀ c ∈ d.1, nonWs c = true) ∧ (∀ c ∈ d.2.1, nonWs c = true)) →
    hasV13 (migratedDecls ds) = false := by
  intro ds
  induction ds with
  | nil => intro _; rfl
  | cons d ds ih =>
    intro h
    obtain ⟨n, s, b⟩ := d
    have hn : ∀ c ∈ n, nonWs c = true := (h (n, s, b) (List.mem_cons_self _ _)).1
    have hs : ∀ c ∈ s, nonWs c = true := (h (n, s, b) (List.mem_cons_self _ _)).2
    have hds : hasV13 (migratedDecls ds) = false :=
      ih (fun x hx => h x (List.mem_cons_of_mem _ hx))
    have h0 : hasV13 ('\n' :: migratedDecls ds) = false := by
      rw [hasV13_newline_peel]; exact hds
    cases b with
    | false =>
      have hrest1 : ∀ i, 1 ≤ i → i ≤ 7 →
          (v13.drop i).isPrefixOf ('\n' :: migratedDecls ds) = false := by
        intro i h1 h7; interval_cases i <;> rfl
      have hsrc : hasV13 (s ++ ('\n' :: migratedDecls ds)) = false :=
        hasV13_token_append ('\n' :: migratedDecls ds) hrest1 h0 s hs
      have hfrom : hasV13 (" from ".data ++ (s ++ ('\n' :: migratedDecls ds))) = false := by
        rw [hasV13_from_peel]; exact hsrc
      have hrest2 : ∀ i, 1 ≤ i → i ≤ 7 →
          (v13.drop i).isPrefixOf
            (" from ".data ++ (s ++ ('\n' :: migratedDecls ds))) = false := by
        intro i h1 h7; interval_cases i <;> rfl
      have hnm : hasV13 (n ++ (" from ".data ++ (s ++ ('\n' :: migratedDecls ds)))) = false :=
        hasV13_token_append _ hrest2 hfrom n hn
      show hasV13 (toolDecl n s false ++ ('\n' :: migratedDecls ds)) = false
      simp only [toolDecl, List.append_assoc]
      show hasV13 ("tool ".data ++ (n ++ (" from ".data ++
        (s ++ ('\n' :: migratedDecls ds))))) = false
      rw [hasV13_tool_peel]
      exact hnm
    | true =>
      have hbr : hasV13 (" \x7b".data ++ ('\n' :: migratedDecls ds)) = false := by
        rw [hasV13_brace_peel]; exact h0
      have hrest1 : ∀ i, 1 ≤ i → i ≤ 7 →
          (v13.drop i).isPrefixOf
            (" \x7b".data ++ ('\n' :: migratedDecls ds)) = false := by
        intro i h1 h7; interval_cases i <;> rfl
      have hsrc : hasV13 (s ++ (" \x7b".data ++ ('\n' :: migratedDecls ds))) = false :=
        hasV13_token_append _ hrest1 hbr s hs
      have hfrom : hasV13 (" from ".data ++
          (s ++ (" \x7b".data ++ ('\n' :: migratedDecls ds)))) = false := by
        rw [hasV13_from_peel]; exact hsrc
      have hrest2 : ∀ i, 1 ≤ i → i ≤ 7 →
          (v13.drop i).isPrefixOf (" from ".data ++
            (s ++ (" \x7b".data ++ ('\n' :: migratedDecls ds)))) = false := by
        intro i h1 h7; interval_cases i <;> rfl
      have hnm : hasV13 (n ++ (" from ".data ++
          (s ++ (" \x7b".data ++ ('\n' :: migratedDecls ds))))) = false :=
        hasV13_token_append _ hrest2 hfrom n hn
      show hasV13 (toolDecl n s true ++ ('\n' :: migratedDecls ds)) = false
      simp only [toolDecl, List.append_assoc]
      show hasV13 ("tool ".data ++ (n ++ (" from ".data ++
        (s ++ (" \x7b".data ++ ('\n' :: migratedDecls ds)))))) = false
      rw [hasV13_tool_peel]
      exact hnm

theorem migratedDecls_quote_free : ∀ (ds : List (List Char × List Char × Bool)),
    (∀ d ∈ ds, (∀ c ∈ d.1, c ≠ '\"' ∧ c ≠ '\'') ∧
               (∀ c ∈ d.2.1, c ≠ '\"' ∧ c ≠ '\'')) →
    ∀ c ∈ migratedDecls ds, c ≠ '\"' ∧ c ≠ '\'' := by
  intro ds
  induction ds with
  | nil => intro _ c hc; exact absurd hc (List.not_mem_nil c)
  | cons d ds ih =>
    intro h c hc
    obtain ⟨n, s, b⟩ := d
    have hn := (h (n, s, b) (List.mem_cons_self _ _)).1
    have hs := (h (n, s, b) (List.mem_cons_self _ _)).2
    rw [show migratedDecls ((n, s, b) :: ds)
        = toolDecl n s b ++ ('\n' :: migratedDecls ds) from rfl] at hc
    simp only [toolDecl, List.append_assoc, List.mem_append] at hc
    rcases hc with h1 | h2 | h3 | h4 | h5 | h6
    · exact (show ∀ x ∈ "tool ".data, x ≠ '\"' ∧ x ≠ '\'' from by decide) c h1
    · exact hn c h2
    · exact (show ∀ x ∈ " from ".data, x ≠ '\"' ∧ x ≠ '\'' from by decide) c h3
    · exact hs c h4
    · cases hb : b
      · rw [hb] at h5
        exact absurd h5 (List.not_mem_nil c)
      · rw [hb] at h5
        exact (show ∀ x ∈ " \x7b".data, x ≠ '\"' ∧ x ≠ '\'' from by decide) c h5
    · rcases List.mem_cons.mp h6 with rfl | h7
      · exact ⟨by decide, by decide⟩
      · exact ih (fun x hx => h x (List.mem_cons_of_mem _ hx)) c h7

theorem renderDoc_map_asPassive : ∀ (ds : List (List Char × List Char × Bool)),
    renderDoc (ds.map asPassiveLine) = migratedDecls ds := by
  intro ds
  induction ds with
  | nil => rfl
  | cons d ds ih =>
    obtain ⟨n, s, b⟩ := d
    show renderLine (asPassiveLine (n, s, b))
        ++ ('\n' :: renderDoc (ds.map asPassiveLine))
      = toolDecl n s b ++ ('\n' :: migratedDecls ds)
    rw [ih]
    rfl

/-- The rendered passive document is exactly the already-migrated file. -/
theorem renderDoc_asPassive (ds : List (List Char × List Char × Bool)) :
    renderDoc (asPassiveDoc ds) = "version 1.4\n".data ++ migratedDecls ds := by
  show ('v' :: "ersion 1.4".data) ++ ('\n' :: renderDoc (ds.map asPassiveLine))
    = "version 1.4\n".data ++ migratedDecls ds
  rw [renderDoc_map_asPassive]
  rfl

theorem rewriteDoc_map_asPassive : ∀ (ds : List (List Char × List Char × Bool)),
    rewriteDoc (ds.map asPassiveLine) = renderDoc (ds.map asPassiveLine) := by
  intro ds
  induction ds with
  | nil => rfl
  | cons d ds ih =>
    show rewriteLine (asPassiveLine d) ++ ('\n' :: rewriteDoc (ds.map asPassiveLine))
      = renderLine (asPassiveLine d) ++ ('\n' :: renderDoc (ds.map asPassiveLine))
    rw [ih]
    rfl

/-- Passive lines are rewritten to themselves, so the whole passive
document is. -/
theorem rewriteDoc_asPassive (ds : List (List Char × List Char × Bool)) :
    rewriteDoc (asPassiveDoc ds) = renderDoc (asPassiveDoc ds) := by
  show ('v' :: "ersion 1.4".data) ++ ('\n' :: rewriteDoc (ds.map asPassiveLine))
    = ('v' :: "ersion 1.4".data) ++ ('\n' :: renderDoc (ds.map asPassiveLine))
  rw [rewriteDoc_map_asPassive]

theorem asPassiveDoc_WF (ds : List (List Char × List Char × Bool))
    (h : ∀ d ∈ ds, (∀ c ∈ d.1, nonWs c = true) ∧ (∀ c ∈ d.2.1, nonWs c = true)) :
    ∀ l ∈ asPassiveDoc ds, WFLine l := by
  intro l hl
  rcases List.mem_cons.mp hl with rfl | hl'
  · exact ⟨by decide, by decide, by decide, by decide, by decide⟩
  · obtain ⟨d, hd, rfl⟩ := List.mem_map.mp hl'
    obtain ⟨hn, hs⟩ := h d hd
    refine ⟨by decide, by decide, by decide, by decide, ?_⟩
    intro hmem
    simp only [List.mem_append] at hmem
    rcases hmem with h1 | h2 | h3 | h4 | h5
    · exact absurd h1 (by decide)
    · exact absurd (hn '\n' h2) (by decide)
    · exact absurd h3 (by decide)
    · exact absurd (hs '\n' h4) (by decide)
    · cases hb : d.2.2
      · rw [hb] at h5; exact absurd h5 (by decide)
      · rw [hb] at h5; exact absurd h5 (by decide)

/-- The fuel of the version pass is irrelevant once it covers the text
length: every step consumes at least one character. -/
theorem replaceVersion_fuel : ∀ (L : Nat) (s : List Char) (n m : Nat),
    s.length ≤ L → s.length ≤ n → s.length ≤ m →
    replaceVersion n s = replaceVersion m s := by
  intro L
  induction L with
  | zero =>
    intro s n m hL _ _
    have hs : s = [] := List.eq_nil_of_length_eq_zero (Nat.le_zero.mp hL)
    subst hs
    cases n <;> cases m <;> rfl
  | succ L ih =>
    intro s n m hL hn hm
    cases s with
    | nil => cases n <;> cases m <;> rfl
    | cons c cs =>
      cases n with
      | zero => exact absurd (show cs.length + 1 ≤ 0 from hn) (by omega)
      | succ n =>
        cases m with
        | zero => exact absurd (show cs.length + 1 ≤ 0 from hm) (by omega)
        | succ m =>
          show (if v13.isPrefixOf (c :: cs) then
                v14 ++ replaceVersion n ((c :: cs).drop 11)
              else c :: replaceVersion n cs)
            = (if v13.isPrefixOf (c :: cs) then
                v14 ++ replaceVersion m ((c :: cs).drop 11)
              else c :: replaceVersion m cs)
          by_cases hp : v13.isPrefixOf (c :: cs) = true
          · rw [if_pos hp, if_pos hp]
            have hpre := List.isPrefixOf_iff_prefix.mp hp
            have hle := hpre.length_le
            rw [show v13.length = 11 from rfl] at hle
            have hdrop := List.length_drop 11 (c :: cs)
            have hcl : (c :: cs).length = cs.length + 1 := rfl
            rw [ih ((c :: cs).drop 11) n m (by omega) (by omega) (by omega)]
          · rw [if_neg hp, if_neg hp]
            have hcl : (c :: cs).length = cs.length + 1 := rfl
            rw [ih cs n m (by omega) (by omega) (by omega)]

/-- One step of the version pass at a position where the needle matches:
the match is consumed, `version 1.4` emitted. -/
theorem replaceVersion_cons_match (n : Nat) (c : Char) (cs : List Char)
    (h : v13.isPrefixOf (c :: cs) = true) :
    replaceVersion (n + 1) (c :: cs)
      = v14 ++ replaceVersion n ((c :: cs).drop 11) := by
  show (if v13.isPrefixOf (c :: cs) then v14 ++ replaceVersion n ((c :: cs).drop 11)
      else c :: replaceVersion n cs)
    = v14 ++ replaceVersion n ((c :: cs).drop 11)
  rw [if_pos h]

/-- A `version 1.3` at the front is replaced with `version 1.4` and the
scan continues past it on the rest of the text. -/
theorem replaceVersion_v13_front (s : List Char) :
    migrateVersion (v13 ++ s) = v14 ++ migrateVersion s := by
  have h1 : migrateVersion (v13 ++ s)
      = replaceVersion (s.length + 10 + 1) (v13 ++ s) := rfl
  have h2 : v13 ++ s = 'v' :: ("ersion 1.3".data ++ s) := rfl
  have hpre : v13.isPrefixOf ('v' :: ("ersion 1.3".data ++ s)) = true :=
    h2 ▸ isPrefixOf_append_self v13 s
  have h3 : (('v' :: ("ersion 1.3".data ++ s)).drop 11) = s := rfl
  rw [h1, h2, replaceVersion_cons_match (s.length + 10) 'v'
    ("ersion 1.3".data ++ s) hpre, h3,
    replaceVersion_fuel s.length s (s.length + 10) s.length le_rfl (by omega) le_rfl]
  rfl

/-- A `version 1.4` at the front is emitted unchanged and the scan
continues on the rest of the text, whatever it holds. -/
theorem replaceVersion_v14_front (s : List Char) :
    migrateVersion (v14 ++ s) = v14 ++ migrateVersion s := rfl

/-- A head character at which no `version 1.3` occurrence starts is
emitted unchanged and the scan continues on the tail. -/
theorem replaceVersion_cons_no_match (c : Char) (s : List Char)
    (h : v13.isPrefixOf (c :: s) = false) :
    migrateVersion (c :: s) = c :: migrateVersion s := by
  show (if v13.isPrefixOf (c :: s) then
        v14 ++ replaceVersion s.length ((c :: s).drop 11)
      else c :: replaceVersion s.length s)
    = c :: replaceVersion s.length s
  rw [if_neg (by rw [h]; exact Bool.false_ne_true)]

/-- The lazy closing-quote search passes through quote-free, newline-free
text and stops at the first quote character, consuming it. -/
theorem findClose_through : ∀ (r : List Char) (q2 : Char) (tail : List Char),
    (∀ c ∈ r, c ≠ '\"' ∧ c ≠ '\'' ∧ c ≠ '\n') → (q2 = '\"' ∨ q2 = '\'') →
    findClose (r ++ q2 :: tail) = some (r ++ [q2], tail) := by
  intro r
  induction r with
  | nil =>
    intro q2 tail _ hq
    rcases hq with h | h <;> subst h <;> rfl
  | cons c cs ih =>
    intro q2 tail hr hq
    have hc := hr c (List.mem_cons_self c cs)
    have hb1 : (c == '\"' || c == '\'') = false := by
      simp only [Bool.or_eq_false_iff, beq_eq_false_iff_ne, ne_eq]
      exact ⟨hc.1, hc.2.1⟩
    have hb2 : (c == '\n') = false := by
      simp only [beq_eq_false_iff_ne, ne_eq]; exact hc.2.2
    simp only [List.cons_append, findClose, hb1, hb2, Bool.false_eq_true, if_false,
      List.append_eq, ih q2 tail (fun d hd => hr d (List.mem_cons_of_mem c hd)) hq]

/-- On quote-free text the lazy closing-quote search fails (it stops at a
newline or runs off the end). -/
theorem findClose_none_of_no_quote : ∀ (l : List Char),
    (∀ c ∈ l, c ≠ '\"' ∧ c ≠ '\'') → findClose l = none := by
  intro l
  induction l with
  | nil => intro _; rfl
  | cons c cs ih =>
    intro h
    have hc := h c (List.mem_cons_self c cs)
    have hb1 : (c == '\"' || c == '\'') = false := by
      simp only [Bool.or_eq_false_iff, beq_eq_false_iff_ne, ne_eq]
      exact ⟨hc.1, hc.2⟩
    by_cases hn : c = '\n'
    · subst hn; rfl
    · have hb2 : (c == '\n') = false := by
        simp only [beq_eq_false_iff_ne, ne_eq]; exact hn
      simp only [findClose, hb1, hb2, Bool.false_eq_true, if_false,
        ih (fun d hd => h d (List.mem_cons_of_mem c hd))]

/-- While no closing quote is reachable, the greedy name candidate keeps
giving characters back to the lazy part. -/
theorem fitNameRev_skip : ∀ (u rs after : List Char),
    (∀ c ∈ u, c ≠ '\"' ∧ c ≠ '\'') → (∀ c ∈ after, c ≠ '\"' ∧ c ≠ '\'') →
    fitNameRev (u ++ rs) after = fitNameRev rs (u.reverse ++ after) := by
  intro u
  induction u with
  | nil => intro rs after _ _; rfl
  | cons c cs ih =>
    intro rs after hu ha
    have h1 : findClose after = none := findClose_none_of_no_quote after ha
    simp only [List.cons_append, fitNameRev, h1, List.append_eq]
    rw [ih rs (c :: after) (fun d hd => hu d (List.mem_cons_of_mem c hd))
      (fun d hd => by
        rcases List.mem_cons.mp hd with h | h
        · subst h; exact hu d (List.mem_cons_self d cs)
        · exact ha d h)]
    simp only [List.reverse_cons, List.append_assoc, List.singleton_append]

/-- Pass 3 distributes over a quote-free context: no match can start inside
it, so it is emitted verbatim. -/
theorem scan3_append_of_no_quote : ∀ (ctx : List Char) (n : Nat) (s : List Char),
    (∀ c ∈ ctx, c ≠ '\"' ∧ c ≠ '\'') →
    scan3 (n + ctx.length) (ctx ++ s) = ctx ++ scan3 n s := by
  intro ctx
  induction ctx with
  | nil => intro n s _; rfl
  | cons c cs ih =>
    intro n s h
    have hc := h c (List.mem_cons_self c cs)
    have hb : (c == '\"' || c == '\'') = false := by
      simp only [Bool.or_eq_false_iff, beq_eq_false_iff_ne, ne_eq]
      exact ⟨hc.1, hc.2⟩
    show scan3 ((n + cs.length) + 1) (c :: (cs ++ s)) = c :: (cs ++ scan3 n s)
    simp only [scan3, hb, Bool.false_eq_true, if_false]
    exact congrArg (c :: ·) (ih n s (fun d hd => h d (List.mem_cons_of_mem c hd)))

/-- Full characterisation of a successful quoted-string match: the text
after an opening quote that consists of the keyword, whitespace runs, a
source token, `as` (written as its two characters), a name token, a
quote-free and newline-free remainder that is empty or starts with
whitespace, and a closing quote followed by quote-free text, is parsed into
exactly those groups. -/
theorem tryMatch3_spec (q2 : Char) (k w1 w2 w3 source name r tail : List Char)
    (hq2 : q2 = '\"' ∨ q2 = '\'')
    (hk : k = "extend".data ∨ k = "Extend".data)
    (hw1 : w1 ≠ []) (hw1s : ∀ c ∈ w1, isSpace c = true)
    (hw2 : w2 ≠ []) (hw2s : ∀ c ∈ w2, isSpace c = true)
    (hw3 : w3 ≠ []) (hw3s : ∀ c ∈ w3, isSpace c = true)
    (hsrc : source ≠ []) (hsrcs : ∀ c ∈ source, nonWs c = true)
    (hname : name ≠ []) (hnames : ∀ c ∈ name, nonWs c = true)
    (hr : ∀ c ∈ r, c ≠ '\"' ∧ c ≠ '\'' ∧ c ≠ '\n')
    (hrh : r = [] ∨ ∃ rc rest, r = rc :: rest ∧ isSpace rc = true)
    (htail : ∀ c ∈ tail, c ≠ '\"' ∧ c ≠ '\'') :
    tryMatch3 (k ++ (w1 ++ (source ++ (w2 ++ ('a' :: 's' ::
        (w3 ++ (name ++ (r ++ q2 :: tail))))))))
      = some (source, name, r ++ [q2], tail) := by
  obtain ⟨sc, source', rfl⟩ := List.exists_cons_of_ne_nil hsrc
  obtain ⟨nc, name', rfl⟩ := List.exists_cons_of_ne_nil hname
  obtain ⟨w2c, w2', rfl⟩ := List.exists_cons_of_ne_nil hw2
  have hscs : isSpace sc = false := by
    have h := hsrcs sc (List.mem_cons_self sc source')
    simpa only [nonWs, Bool.not_eq_true'] using h
  have hncs : isSpace nc = false := by
    have h := hnames nc (List.mem_cons_self nc name')
    simpa only [nonWs, Bool.not_eq_true'] using h
  have hw2cs : isSpace w2c = true := hw2s w2c (List.mem_cons_self w2c w2')
  have hw2cn : nonWs w2c = false := by
    simp only [nonWs, hw2cs, Bool.not_true]
  have hkey : ∀ s : List Char, stripKeyword (k ++ s) = some s := by
    intro s
    rcases hk with h | h <;> subst h <;> unfold stripKeyword
    · rw [isPrefixOf_append_self, Bool.true_or, if_pos rfl,
        List.drop_left' (show ("extend".data).length = 6 from rfl)]
    · rw [isPrefixOf_append_self, Bool.or_true, if_pos rfl,
        List.drop_left' (show ("Extend".data).length = 6 from rfl)]
  have ha1 : ∀ X : List Char, ((sc :: source') ++ X).takeWhile isSpace = [] := by
    intro X
    simp only [List.cons_append, List.takeWhile_cons, hscs, Bool.false_eq_true, if_false]
  have ha2 : ∀ X : List Char, ((sc :: source') ++ X).dropWhile isSpace
      = (sc :: source') ++ X := by
    intro X
    simp only [List.cons_append, List.dropWhile_cons, hscs, Bool.false_eq_true, if_false]
  have hb1 : ∀ X : List Char, (((w2c :: w2') ++ X)).takeWhile nonWs = [] := by
    intro X
    simp only [List.cons_append, List.takeWhile_cons, hw2cn, Bool.false_eq_true, if_false]
  have hb2 : ∀ X : List Char, ((w2c :: w2') ++ X).dropWhile nonWs
      = (w2c :: w2') ++ X := by
    intro X
    simp only [List.cons_append, List.dropWhile_cons, hw2cn, Bool.false_eq_true, if_false]
  have hc1 : ∀ X : List Char, ('a' :: 's' :: X).takeWhile isSpace = [] := by
    intro X
    simp only [List.takeWhile_cons, show isSpace 'a' = false from rfl,
      Bool.false_eq_true, if_false]
  have hd1 : ∀ X : List Char, ((nc :: name') ++ X).takeWhile isSpace = [] := by
    intro X
    simp only [List.cons_append, List.takeWhile_cons, hncs, Bool.false_eq_true, if_false]
  have hd2 : ∀ X : List Char, ((nc :: name') ++ X).dropWhile isSpace
      = (nc :: name') ++ X := by
    intro X
    simp only [List.cons_append, List.dropWhile_cons, hncs, Bool.false_eq_true, if_false]
  have hAs : ∀ X : List Char, stripAs ('a' :: 's' :: X) = some X := by
    intro X
    unfold stripAs
    rw [if_pos]
    · rfl
    · show ("as".data.isPrefixOf ('a' :: 's' :: X)) = true
      rw [show "as".data = ['a', 's'] from rfl]
      simp [List.isPrefixOf]
  unfold tryMatch3
  rw [hkey]
  simp only [takeWhile_append_of_all hw1s, ha1, List.append_nil,
    List.isEmpty_eq_false.mpr hw1, Bool.false_eq_true, if_false,
    dropWhile_append_of_all hw1s, ha2]
  rw [show ((sc :: source') ++ ((w2c :: w2') ++ ('a' :: 's' ::
      (w3 ++ ((nc :: name') ++ (r ++ q2 :: tail)))))).takeWhile nonWs
      = sc :: source' by
    rw [takeWhile_append_of_all hsrcs, hb1, List.append_nil]]
  rw [show ((sc :: source') ++ ((w2c :: w2') ++ ('a' :: 's' ::
      (w3 ++ ((nc :: name') ++ (r ++ q2 :: tail)))))).dropWhile nonWs
      = (w2c :: w2') ++ ('a' :: 's' :: (w3 ++ ((nc :: name') ++ (r ++ q2 :: tail)))) by
    rw [dropWhile_append_of_all hsrcs, hb2]]
  simp only [List.isEmpty_cons, Bool.false_eq_true, if_false,
    takeWhile_append_of_all hw2s, hc1, List.append_nil,
    dropWhile_append_of_all hw2s,
    show ('a' :: 's' :: (w3 ++ ((nc :: name') ++ (r ++ q2 :: tail)))).dropWhile isSpace
      = 'a' :: 's' :: (w3 ++ ((nc :: name') ++ (r ++ q2 :: tail))) from rfl,
    hAs, takeWhile_append_of_all hw3s, hd1,
    List.isEmpty_eq_false.mpr hw3,
    dropWhile_append_of_all hw3s, hd2]
  rcases hrh with hre | ⟨rc, rest, hre, hrc⟩
  · subst hre
    simp only [List.nil_append]
    have hq2n : nonWs q2 = true := by rcases hq2 with h | h <;> subst h <;> rfl
    rw [show ((nc :: name') ++ q2 :: tail).takeWhile nonWs
        = (nc :: name') ++ (q2 :: tail.takeWhile nonWs) by
      rw [takeWhile_append_of_all hnames]
      simp [List.takeWhile_cons, hq2n]]
    rw [show ((nc :: name') ++ q2 :: tail).dropWhile nonWs = tail.dropWhile nonWs by
      rw [dropWhile_append_of_all hnames]
      simp [List.dropWhile_cons, hq2n]]
    simp only [List.cons_append, List.isEmpty_cons, Bool.false_eq_true, if_false]
    rw [show (nc :: (name' ++ q2 :: tail.takeWhile nonWs)).reverse
        = (tail.takeWhile nonWs).reverse ++ (q2 :: (nc :: name').reverse) by
      rw [show nc :: (name' ++ q2 :: tail.takeWhile nonWs)
          = (nc :: name') ++ (q2 :: tail.takeWhile nonWs) from rfl]
      simp only [List.reverse_append, List.reverse_cons, List.append_assoc,
        List.singleton_append, List.nil_append]]
    have hmem_tw : ∀ x ∈ tail.takeWhile nonWs, x ∈ tail := fun x hx =>
      (List.takeWhile_append_dropWhile nonWs tail) ▸ List.mem_append_left _ hx
    have hmem_dw : ∀ x ∈ tail.dropWhile nonWs, x ∈ tail := fun x hx =>
      (List.takeWhile_append_dropWhile nonWs tail) ▸ List.mem_append_right _ hx
    rw [fitNameRev_skip (tail.takeWhile nonWs).reverse (q2 :: (nc :: name').reverse)
      (tail.dropWhile nonWs)
      (fun c hc => htail c (hmem_tw c (List.mem_reverse.mp hc)))
      (fun c hc => htail c (hmem_dw c hc))]
    rw [List.reverse_reverse, List.takeWhile_append_dropWhile]
    have hfc : findClose tail = none := findClose_none_of_no_quote tail htail
    simp only [fitNameRev, hfc]
    obtain ⟨y, ys, hy⟩ :=
      List.exists_cons_of_ne_nil (show (nc :: name').reverse ≠ [] by simp)
    rw [hy]
    have hfc2 : findClose (q2 :: tail) = some ([q2], tail) := by
      rcases hq2 with h | h <;> subst h <;> rfl
    simp only [fitNameRev, hfc2]
    rw [← hy, List.reverse_reverse]
  · subst hre
    have hrcn : nonWs rc = false := by simp only [nonWs, hrc, Bool.not_true]
    rw [show ((nc :: name') ++ ((rc :: rest) ++ q2 :: tail)).takeWhile nonWs
        = nc :: name' by
      rw [takeWhile_append_of_all hnames]
      simp only [List.cons_append, List.takeWhile_cons, hrcn, Bool.false_eq_true,
        if_false, List.append_nil]]
    rw [show ((nc :: name') ++ ((rc :: rest) ++ q2 :: tail)).dropWhile nonWs
        = (rc :: rest) ++ q2 :: tail by
      rw [dropWhile_append_of_all hnames]
      simp only [List.cons_append, List.dropWhile_cons, hrcn, Bool.false_eq_true,
        if_false]]
    simp only [List.isEmpty_cons, Bool.false_eq_true, if_false]
    obtain ⟨y, ys, hy⟩ :=
      List.exists_cons_of_ne_nil (show (nc :: name').reverse ≠ [] by simp)
    rw [hy]
    have hfc3 : findClose ((rc :: rest) ++ q2 :: tail)
        = some ((rc :: rest) ++ [q2], tail) :=
      findClose_through (rc :: rest) q2 tail hr hq2
    simp only [fitNameRev, hfc3]
    rw [← hy, List.reverse_reverse]

/-- One report line and one outcome are produced per path, in list order,
with the line determined by the outcome. -/
theorem runPaths_report (fs : FS) (ps : List String) :
    (runPaths fs ps).1 = ((runPaths fs ps).2.1).map (fun po => lineFor po.2 po.1) ∧
    ((runPaths fs ps).2.1).map Prod.fst = ps := by
  induction ps generalizing fs with
  | nil => exact ⟨rfl, rfl⟩
  | cons p ps ih =>
    have step : ∀ (g : FS) (o : Outcome),
        (lineFor o p :: (runPaths g ps).1 =
          List.map (fun po => lineFor po.2 po.1) ((p, o) :: (runPaths g ps).2.1)) ∧
        List.map Prod.fst ((p, o) :: (runPaths g ps).2.1) = p :: ps := by
      intro g o
      refine ⟨?_, ?_⟩
      · simp only [List.map_cons]
        exact congrArg (lineFor o p :: ·) (ih g).1
      · simp only [List.map_cons]
        exact congrArg (p :: ·) (ih g).2
    cases h : fs p with
    | none => simpa only [runPaths, h] using step fs .notFound
    | some c =>
      by_cases hc : migrateText c = c
      · simpa only [runPaths, h, if_pos hc] using step fs .unchanged
      · simpa only [runPaths, h, if_neg hc] using step (writeFS fs p (migrateText c)) .migrated

/-! ## Claims -/

/-- Claim C1, counterexample.  The rewriter is not idempotent: on
`extend version as n 1.3` the declaration rewrite produces
`tool n from version 1.3` after the version pass has already run, so a
second application turns the trailing `version 1.3` into `version 1.4`. -/
theorem c1_counterexample :
    migrateText (migrateText "extend version as n 1.3".data) ≠
      migrateText "extend version as n 1.3".data := by decide

/-- Claim C1, amended: re-running the rewriter on already-migrated
1.4-syntax text alters nothing, because the 1.3-pattern triggers no longer
match; full idempotence for every input fails (see the counterexample).
Universally: for every already-migrated text — a `version 1.4` header line
followed by any list of `tool <name> from <source>` declaration lines,
each with an optional trailing brace, the name and source tokens being
arbitrary non-whitespace, quote-free strings — the full transformation
returns the text unchanged: the version pass finds no `version 1.3`, the
declaration pass matches no line, and the quoted-string pass finds no
quote. -/
theorem c1_amended_fixed_on_migrated (ds : List (List Char × List Char × Bool))
    (h : ∀ d ∈ ds, (∀ c ∈ d.1, nonWs c = true ∧ c ≠ '\"' ∧ c ≠ '\'') ∧
                   (∀ c ∈ d.2.1, nonWs c = true ∧ c ≠ '\"' ∧ c ≠ '\'')) :
    migrateText ("version 1.4\n".data ++ migratedDecls ds)
      = "version 1.4\n".data ++ migratedDecls ds := by
  have hnw : ∀ d ∈ ds, (∀ c ∈ d.1, nonWs c = true) ∧ (∀ c ∈ d.2.1, nonWs c = true) :=
    fun d hd => ⟨fun c hc => ((h d hd).1 c hc).1, fun c hc => ((h d hd).2 c hc).1⟩
  have hqf : ∀ d ∈ ds, (∀ c ∈ d.1, c ≠ '\"' ∧ c ≠ '\'') ∧
      (∀ c ∈ d.2.1, c ≠ '\"' ∧ c ≠ '\'') :=
    fun d hd => ⟨fun c hc => ((h d hd).1 c hc).2, fun c hc => ((h d hd).2 c hc).2⟩
  have hv13 : hasV13 ("version 1.4\n".data ++ migratedDecls ds) = false := by
    rw [hasV13_v14line_peel]
    exact hasV13_migratedDecls ds hnw
  have h1 : migrateVersion ("version 1.4\n".data ++ migratedDecls ds)
      = "version 1.4\n".data ++ migratedDecls ds :=
    replaceVersion_id_of_no_v13 _ _ hv13
  have hwf : ∀ l ∈ asPassiveDoc ds, WFLine l := asPassiveDoc_WF ds hnw
  have h2 : migrateExtend ("version 1.4\n".data ++ migratedDecls ds)
      = "version 1.4\n".data ++ migratedDecls ds := by
    rw [← renderDoc_asPassive ds]
    have hs := scan2_renderDoc (asPassiveDoc ds) hwf
      (renderDoc (asPassiveDoc ds)).length le_rfl
    show scan2 (renderDoc (asPassiveDoc ds)).length true (renderDoc (asPassiveDoc ds))
      = renderDoc (asPassiveDoc ds)
    rw [hs, rewriteDoc_asPassive]
  have hq : ∀ c ∈ ("version 1.4\n".data ++ migratedDecls ds),
      c ≠ '\"' ∧ c ≠ '\'' := by
    intro c hc
    rcases List.mem_append.mp hc with hcv | hcd
    · exact (show ∀ x ∈ "version 1.4\n".data, x ≠ '\"' ∧ x ≠ '\'' from by decide) c hcv
    · exact migratedDecls_quote_free ds hqf c hcd
  have h3 : migrateStrings ("version 1.4\n".data ++ migratedDecls ds)
      = "version 1.4\n".data ++ migratedDecls ds :=
    scan3_id_of_no_quote _ _ hq
  show migrateStrings (migrateExtend (migrateVersion
    ("version 1.4\n".data ++ migratedDecls ds)))
    = "version 1.4\n".data ++ migratedDecls ds
  rw [h1, h2, h3]

theorem c1_amended_fixed_on_migrated_witness :
    migrateText ("version 1.4\n".data ++ migratedDecls
      [("local".data, "./local.bridge".data, true),
       ("gh".data, "github-api".data, false)])
    = "version 1.4\n".data ++ migratedDecls
      [("local".data, "./local.bridge".data, true),
       ("gh".data, "github-api".data, false)] :=
  c1_amended_fixed_on_migrated
    [("local".data, "./local.bridge".data, true),
     ("gh".data, "github-api".data, false)] (by decide)

/-- Claim C2, counterexample.  The whitespace standing before a trailing
brace is captured inside group 4 and emitted verbatim, so the rewritten
line keeps the three spaces before the brace instead of the single space
the claim requires. -/
theorem c2_counterexample :
    migrateText "  Extend   ./local.bridge   as   local   \x7b".data
        ≠ "  tool local from ./local.bridge \x7b".data ∧
    migrateText "  Extend   ./local.bridge   as   local   \x7b".data
        = "  tool local from ./local.bridge   \x7b".data :=
  ⟨by decide, by decide⟩

/-- Claim C2, amended: for any indentation, either accepted keyword
capitalisation, any whitespace runs between the tokens and any source and
name tokens, the rewritten line carries single spaces between its tokens
(the input runs are consumed, the output spaces are the literal ones of
the replacement); whitespace standing before a trailing brace is captured
with the brace and emitted verbatim; in particular the example line keeps
its three spaces before the brace. -/
theorem c2_amended_normalization (k ind w1 w2 w3 source name : List Char)
    (hk : k = "extend".data ∨ k = "Extend".data)
    (hind : ∀ c ∈ ind, isSpace c = true)
    (hw1 : w1 ≠ []) (hw1s : ∀ c ∈ w1, isSpace c = true)
    (hw2 : w2 ≠ []) (hw2s : ∀ c ∈ w2, isSpace c = true)
    (hw3 : w3 ≠ []) (hw3s : ∀ c ∈ w3, isSpace c = true)
    (hsrc : source ≠ []) (hsrcs : ∀ c ∈ source, nonWs c = true)
    (hname : name ≠ []) (hnames : ∀ c ∈ name, nonWs c = true) :
    migrateExtend (ind ++ (k ++ (w1 ++ (source ++ (w2 ++ ('a' :: 's' ::
        (w3 ++ name)))))))
      = ind ++ ("tool ".data ++ (name ++ (" from ".data ++ source))) ∧
    (∀ wb : List Char, wb ≠ [] → (∀ c ∈ wb, isSpace c = true) → '\n' ∉ wb →
      migrateExtend (ind ++ (k ++ (w1 ++ (source ++ (w2 ++ ('a' :: 's' ::
          (w3 ++ (name ++ (wb ++ ['\x7b'])))))))))
        = ind ++ ("tool ".data ++ (name ++ (" from ".data ++
            (source ++ (wb ++ ['\x7b'])))))) ∧
    migrateText "  Extend   ./local.bridge   as   local   \x7b".data
      = "  tool local from ./local.bridge   \x7b".data := by
  refine ⟨?_, ?_, by decide⟩
  · have h := extendLine_rewrite k ind w1 w2 w3 source name [] hk hind hw1 hw1s
      hw2 hw2s hw3 hw3s hsrc hsrcs hname hnames (Or.inl rfl) (by simp)
    simpa only [List.append_nil] using h
  · intro wb hwb hwbs hwbn
    obtain ⟨wc, wb', rfl⟩ := List.exists_cons_of_ne_nil hwb
    refine extendLine_rewrite k ind w1 w2 w3 source name ((wc :: wb') ++ ['\x7b'])
      hk hind hw1 hw1s hw2 hw2s hw3 hw3s hsrc hsrcs hname hnames
      (Or.inr ⟨wc, wb' ++ ['\x7b'], rfl, hwbs wc (List.mem_cons_self wc wb')⟩) ?_
    intro hx
    rcases List.mem_append.mp hx with hx | hx
    · exact hwbn hx
    · exact absurd (List.mem_singleton.mp hx) (by decide)

theorem c2_amended_normalization_witness :
    migrateExtend "  Extend   ./local.bridge   as   local".data
      = "  tool local from ./local.bridge".data ∧
    migrateExtend "  Extend   ./local.bridge   as   local   \x7b".data
      = "  tool local from ./local.bridge   \x7b".data := by
  have h := c2_amended_normalization "Extend".data "  ".data "   ".data
    "   ".data "   ".data "./local.bridge".data "local".data
    (Or.inr rfl)
    (by intro c hc; fin_cases hc <;> decide)
    (by decide) (by intro c hc; fin_cases hc <;> decide)
    (by decide) (by intro c hc; fin_cases hc <;> decide)
    (by decide) (by intro c hc; fin_cases hc <;> decide)
    (by decide) (by intro c hc; fin_cases hc <;> decide)
    (by decide) (by intro c hc; fin_cases hc <;> decide)
  exact ⟨h.1, h.2.1 "   ".data (by decide)
    (by intro c hc; fin_cases hc <;> decide) (by decide)⟩

/-- Claim C3, counterexample.  The character class backslash-s of the
pattern matches newlines, so a declaration whose tokens are spread over two
lines is still matched and rewritten; no single line of the input holds a
complete declaration, yet the text changes. -/
theorem c3_counterexample :
    migrateText "extend foo\nas bar".data = "tool bar from foo".data ∧
    "extend foo\nas bar".data ≠ "tool bar from foo".data :=
  ⟨by decide, by decide⟩

/-- Claim C3, amended: the declaration rewrite is anchored at line starts
(under MULTILINE) and is applied at every match across the whole document,
a mid-line `extend` is left alone; but the whitespace between tokens may
include newlines, so one matched declaration can span several lines.  For
every document assembled from newline-terminated lines each of which is
either a complete single-line declaration (arbitrary indent, either
keyword case, arbitrary single-line whitespace runs, arbitrary tokens,
optional trailing brace) or a passive line (starting with a non-space
character other than `e`, `E` or a brace — the last exclusion keeping the
previous line's optional brace group from reaching into it), pass 2
rewrites exactly the declaration lines and emits every passive line
verbatim, even when the keyword occurs mid-line. -/
theorem c3_amended_anchoring (ls : List LineSpec) (h : ∀ l ∈ ls, WFLine l) :
    migrateExtend (renderDoc ls) = rewriteDoc ls :=
  scan2_renderDoc ls h (renderDoc ls).length le_rfl

theorem c3_amended_anchoring_witness :
    migrateExtend "extend a as b\nfoo extend c as d\nExtend e as f\n".data
      = "tool b from a\nfoo extend c as d\ntool f from e\n".data := by
  have h := c3_amended_anchoring
    [ .decl "extend".data [] [' '] [' '] [' '] "a".data "b".data [],
      .passive 'f' "oo extend c as d".data,
      .decl "Extend".data [] [' '] [' '] [' '] "e".data "f".data [] ]
    (by
      intro l hl
      fin_cases hl
      · exact ⟨Or.inl rfl, fun c hc => absurd hc (List.not_mem_nil c),
          ⟨by decide, by intro c hc; fin_cases hc; decide⟩,
          ⟨by decide, by intro c hc; fin_cases hc; decide⟩,
          ⟨by decide, by intro c hc; fin_cases hc; decide⟩,
          ⟨by decide, by intro c hc; fin_cases hc; decide⟩,
          ⟨by decide, by intro c hc; fin_cases hc; decide⟩, Or.inl rfl⟩
      · exact ⟨by decide, by decide, by decide, by decide, by decide⟩
      · exact ⟨Or.inr rfl, fun c hc => absurd hc (List.not_mem_nil c),
          ⟨by decide, by intro c hc; fin_cases hc; decide⟩,
          ⟨by decide, by intro c hc; fin_cases hc; decide⟩,
          ⟨by decide, by intro c hc; fin_cases hc; decide⟩,
          ⟨by decide, by intro c hc; fin_cases hc; decide⟩,
          ⟨by decide, by intro c hc; fin_cases hc; decide⟩, Or.inl rfl⟩)
  exact h

/-- Claim C5: the version pass replaces every occurrence of the exact,
case-sensitive substring `version 1.3`, anywhere in the text, with
`version 1.4`, so that none remains afterwards, and existing `version 1.4`
occurrences are left untouched.  For every text (mixed texts included):
after the pass no `version 1.3` occurrence remains; a `version 1.3` at the
scan point is replaced with `version 1.4` while the rest of the text is
processed the same way; a `version 1.4` at the scan point is emitted
unchanged while the rest is processed; any other character is emitted
unchanged; and a text without the needle passes through whole. -/
theorem c5_version_totality (s : List Char) :
    hasV13 (migrateVersion s) = false ∧
    migrateVersion (v13 ++ s) = v14 ++ migrateVersion s ∧
    migrateVersion (v14 ++ s) = v14 ++ migrateVersion s ∧
    (∀ c, v13.isPrefixOf (c :: s) = false →
      migrateVersion (c :: s) = c :: migrateVersion s) ∧
    (hasV13 s = false → migrateVersion s = s) :=
  ⟨replaceVersion_no_v13 s.length s le_rfl,
   replaceVersion_v13_front s,
   replaceVersion_v14_front s,
   fun c hc => replaceVersion_cons_no_match c s hc,
   fun h => replaceVersion_id_of_no_v13 s.length s h⟩

theorem c5_version_totality_witness :
    hasV13 (migrateVersion "version 1.3, version 1.3 and version 1.4".data) = false ∧
    migrateVersion (v13 ++ " and version 1.3".data)
      = v14 ++ migrateVersion " and version 1.3".data ∧
    migrateVersion (v14 ++ " and version 1.3".data)
      = v14 ++ migrateVersion " and version 1.3".data ∧
    migrateVersion ('x' :: " and version 1.3".data)
      = 'x' :: migrateVersion " and version 1.3".data ∧
    migrateVersion "version 1.4 only".data = "version 1.4 only".data :=
  ⟨(c5_version_totality "version 1.3, version 1.3 and version 1.4".data).1,
   (c5_version_totality " and version 1.3".data).2.1,
   (c5_version_totality " and version 1.3".data).2.2.1,
   (c5_version_totality " and version 1.3".data).2.2.2.1 'x' (by decide),
   (c5_version_totality "version 1.4 only".data).2.2.2.2 (by decide)⟩

/-- Claim C6: text matching no rule passes through unchanged.  The keyword
is case-insensitive only in its first letter, so `EXTEND <src> as <name>`
is rewritten by neither extend rule for any source and name tokens; and
`extendable as X` (keyword not isolated) is unchanged under the full
transformation, as is the concrete line `EXTEND github-api as gh`. -/
theorem c6_passthrough (source name : List Char)
    (hs : ∀ c ∈ source, nonWs c = true ∧ c ≠ '\"' ∧ c ≠ '\'')
    (hn : ∀ c ∈ name, nonWs c = true ∧ c ≠ '\"' ∧ c ≠ '\'') :
    migrateExtend ("EXTEND ".data ++ source ++ " as ".data ++ name)
      = "EXTEND ".data ++ source ++ " as ".data ++ name ∧
    migrateStrings ("EXTEND ".data ++ source ++ " as ".data ++ name)
      = "EXTEND ".data ++ source ++ " as ".data ++ name ∧
    migrateText "extendable as X".data = "extendable as X".data ∧
    migrateText "EXTEND github-api as gh".data = "EXTEND github-api as gh".data := by
  have hnt : '\n' ∉ "TEND ".data ++ source ++ " as ".data ++ name := by
    simp only [List.mem_append]
    rintro (((h | h) | h) | h)
    · exact absurd h (by decide)
    · exact nonWs_ne_newline (hs _ h).1 rfl
    · exact absurd h (by decide)
    · exact nonWs_ne_newline (hn _ h).1 rfl
  refine ⟨?_, ?_, by decide, by decide⟩
  · have key : ∀ (n : Nat) (t : List Char), '\n' ∉ t →
        scan2 (n + 1) true ('E' :: 'X' :: t) = 'E' :: 'X' :: t := by
      intro n t ht
      rw [show scan2 (n + 1) true ('E' :: 'X' :: t)
            = 'E' :: scan2 n false ('X' :: t) from rfl]
      rw [scan2_false_id n ('X' :: t) (by
        intro hm
        rcases List.mem_cons.mp hm with h | h
        · exact absurd h.symm (by decide)
        · exact ht h)]
    show scan2 ("EXTEND ".data ++ source ++ " as ".data ++ name).length true
        ("EXTEND ".data ++ source ++ " as ".data ++ name) = _
    rw [show ("EXTEND ".data ++ source ++ " as ".data ++ name).length
          = (("TEND ".data ++ source ++ " as ".data ++ name).length + 1) + 1 by
        simp only [List.length_append]
        rw [show ("EXTEND ".data).length = 7 from rfl,
          show ("TEND ".data).length = 5 from rfl]
        omega]
    exact key (("TEND ".data ++ source ++ " as ".data ++ name).length + 1)
      ("TEND ".data ++ source ++ " as ".data ++ name) hnt
  · apply scan3_id_of_no_quote
    intro c hc
    simp only [List.mem_append] at hc
    rcases hc with ((h | h) | h) | h
    · refine ⟨?_, ?_⟩ <;> { intro he; subst he; revert h; decide }
    · exact ⟨(hs _ h).2.1, (hs _ h).2.2⟩
    · refine ⟨?_, ?_⟩ <;> { intro he; subst he; revert h; decide }
    · exact ⟨(hn _ h).2.1, (hn _ h).2.2⟩

theorem c6_passthrough_witness :
    migrateExtend ("EXTEND ".data ++ "github-api".data ++ " as ".data ++ "gh".data)
      = "EXTEND ".data ++ "github-api".data ++ " as ".data ++ "gh".data ∧
    migrateStrings ("EXTEND ".data ++ "github-api".data ++ " as ".data ++ "gh".data)
      = "EXTEND ".data ++ "github-api".data ++ " as ".data ++ "gh".data ∧
    migrateText "extendable as X".data = "extendable as X".data ∧
    migrateText "EXTEND github-api as gh".data = "EXTEND github-api as gh".data :=
  c6_passthrough "github-api".data "gh".data (by decide) (by decide)

/-- Claim C10: for every line rewritten by the declaration rule — any
indentation, either accepted keyword capitalisation, any whitespace runs,
any source and name tokens — all characters following the matched portion
are preserved verbatim: the same-line remainder after the name token
reappears unchanged behind the rewritten declaration, whether the match
ends after the name or extends over an optional whitespace-plus-brace at
the front of that remainder; only the matched span is replaced. -/
theorem c10_tail_preserved (k ind w1 w2 w3 source name t : List Char)
    (hk : k = "extend".data ∨ k = "Extend".data)
    (hind : ∀ c ∈ ind, isSpace c = true)
    (hw1 : w1 ≠ []) (hw1s : ∀ c ∈ w1, isSpace c = true)
    (hw2 : w2 ≠ []) (hw2s : ∀ c ∈ w2, isSpace c = true)
    (hw3 : w3 ≠ []) (hw3s : ∀ c ∈ w3, isSpace c = true)
    (hsrc : source ≠ []) (hsrcs : ∀ c ∈ source, nonWs c = true)
    (hname : name ≠ []) (hnames : ∀ c ∈ name, nonWs c = true)
    (ht : t = [] ∨ ∃ d D, t = d :: D ∧ isSpace d = true)
    (htn : '\n' ∉ t) :
    migrateExtend (ind ++ (k ++ (w1 ++ (source ++ (w2 ++ ('a' :: 's' ::
        (w3 ++ (name ++ t))))))))
      = ind ++ ("tool ".data ++ (name ++ (" from ".data ++ (source ++ t)))) :=
  extendLine_rewrite k ind w1 w2 w3 source name t hk hind hw1 hw1s hw2 hw2s
    hw3 hw3s hsrc hsrcs hname hnames ht htn

theorem c10_tail_preserved_witness :
    migrateExtend "  extend ./a as b   \x7b  junk".data
      = "  tool b from ./a   \x7b  junk".data ∧
    migrateExtend "  extend ./a as b  x junk".data
      = "  tool b from ./a  x junk".data := by
  constructor
  · exact c10_tail_preserved "extend".data "  ".data [' '] [' '] [' ']
      "./a".data "b".data "   \x7b  junk".data
      (Or.inl rfl)
      (by intro c hc; fin_cases hc <;> decide)
      (by decide) (by intro c hc; fin_cases hc; decide)
      (by decide) (by intro c hc; fin_cases hc; decide)
      (by decide) (by intro c hc; fin_cases hc; decide)
      (by decide) (by intro c hc; fin_cases hc <;> decide)
      (by decide) (by intro c hc; fin_cases hc; decide)
      (Or.inr ⟨' ', "  \x7b  junk".data, rfl, rfl⟩)
      (by decide)
  · exact c10_tail_preserved "extend".data "  ".data [' '] [' '] [' ']
      "./a".data "b".data "  x junk".data
      (Or.inl rfl)
      (by intro c hc; fin_cases hc <;> decide)
      (by decide) (by intro c hc; fin_cases hc; decide)
      (by decide) (by intro c hc; fin_cases hc; decide)
      (by decide) (by intro c hc; fin_cases hc; decide)
      (by decide) (by intro c hc; fin_cases hc <;> decide)
      (by decide) (by intro c hc; fin_cases hc; decide)
      (Or.inr ⟨' ', " x junk".data, rfl, rfl⟩)
      (by decide)

/-- Claim C4: anywhere in the text (after a quote-free context), a quoted
string literal whose content begins with the first-letter-case-insensitive
form `extend <source> as <name>` (tokens are maximal non-whitespace runs,
separated by whitespace runs, `as` spelled by its two characters) is
rewritten so that the content becomes `tool <name> from <source>` followed
by the original text after the name up to and including the closing quote,
which is the nearest quote character (non-greedy); the text after the
closing quote is processed separately. -/
theorem c4_quoted_rewrite (q q2 : Char) (k w1 w2 w3 source name r ctx tail : List Char)
    (hq : q = '\"' ∨ q = '\'') (hq2 : q2 = '\"' ∨ q2 = '\'')
    (hk : k = "extend".data ∨ k = "Extend".data)
    (hw1 : w1 ≠ []) (hw1s : ∀ c ∈ w1, isSpace c = true)
    (hw2 : w2 ≠ []) (hw2s : ∀ c ∈ w2, isSpace c = true)
    (hw3 : w3 ≠ []) (hw3s : ∀ c ∈ w3, isSpace c = true)
    (hsrc : source ≠ []) (hsrcs : ∀ c ∈ source, nonWs c = true)
    (hname : name ≠ []) (hnames : ∀ c ∈ name, nonWs c = true)
    (hr : ∀ c ∈ r, c ≠ '\"' ∧ c ≠ '\'' ∧ c ≠ '\n')
    (hrh : r = [] ∨ ∃ rc rest, r = rc :: rest ∧ isSpace rc = true)
    (hctx : ∀ c ∈ ctx, c ≠ '\"' ∧ c ≠ '\'')
    (htail : ∀ c ∈ tail, c ≠ '\"' ∧ c ≠ '\'') :
    migrateStrings (ctx ++ q :: (k ++ (w1 ++ (source ++ (w2 ++ ('a' :: 's' ::
        (w3 ++ (name ++ (r ++ q2 :: tail)))))))))
      = ctx ++ ((q :: ("tool ".data ++ name ++ " from ".data ++ source ++ (r ++ [q2])))
          ++ tail) := by
  show scan3 (ctx ++ q :: (k ++ (w1 ++ (source ++ (w2 ++ ('a' :: 's' ::
      (w3 ++ (name ++ (r ++ q2 :: tail))))))))).length
    (ctx ++ q :: (k ++ (w1 ++ (source ++ (w2 ++ ('a' :: 's' ::
      (w3 ++ (name ++ (r ++ q2 :: tail))))))))) = _
  rw [show (ctx ++ q :: (k ++ (w1 ++ (source ++ (w2 ++ ('a' :: 's' ::
      (w3 ++ (name ++ (r ++ q2 :: tail))))))))).length
      = ((k ++ (w1 ++ (source ++ (w2 ++ ('a' :: 's' ::
        (w3 ++ (name ++ (r ++ q2 :: tail)))))))).length + 1) + ctx.length from by
    simp only [List.length_append, List.length_cons]
    omega]
  rw [scan3_append_of_no_quote ctx _ _ hctx]
  refine congrArg (ctx ++ ·) ?_
  have hqb : (q == '\"' || q == '\'') = true := by
    rcases hq with h | h <;> subst h <;> rfl
  have hid : ∀ n : Nat, scan3 n tail = tail :=
    fun n => scan3_id_of_no_quote n tail htail
  simp only [scan3, hqb, if_true,
    tryMatch3_spec q2 k w1 w2 w3 source name r tail hq2 hk hw1 hw1s hw2 hw2s
      hw3 hw3s hsrc hsrcs hname hnames hr hrh htail, hid]
  rfl

theorem c4_quoted_rewrite_witness :
    migrateStrings "\"extend weatherTool as weather failed\"".data
      = "\"tool weather from weatherTool failed\"".data := by
  have h := c4_quoted_rewrite '\"' '\"' "extend".data [' '] [' '] [' ']
    "weatherTool".data "weather".data " failed".data [] []
    (Or.inl rfl) (Or.inl rfl) (Or.inl rfl)
    (by decide) (by intro c hc; fin_cases hc; decide)
    (by decide) (by intro c hc; fin_cases hc; decide)
    (by decide) (by intro c hc; fin_cases hc; decide)
    (by decide) (by intro c hc; fin_cases hc <;> decide)
    (by decide) (by intro c hc; fin_cases hc <;> decide)
    (by intro c hc; fin_cases hc <;> exact ⟨by decide, by decide, by decide⟩)
    (Or.inr ⟨' ', "failed".data, rfl, rfl⟩)
    (fun c hc => absurd hc (List.not_mem_nil c))
    (fun c hc => absurd hc (List.not_mem_nil c))
  exact h

/-- Claim C7: the driver processes the hard-coded `files` list in order and
emits exactly one report line per path, in that order, the line being the
exact wording selected by the outcome of that path. -/
theorem c7_report_lines (fs : FS) :
    (runDriver fs).1 = ((runDriver fs).2.1).map (fun po => lineFor po.2 po.1) ∧
    ((runDriver fs).2.1).map Prod.fst = files :=
  runPaths_report fs files

/-- Claim C8: a path that does not exist is recorded `NOT FOUND` with its
report line, the file system is not touched for it, and processing
continues with the remaining paths on the unchanged file system. -/
theorem c8_missing_skipped (fs : FS) (p : String) (ps : List String)
    (h : fs p = none) :
    (runPaths fs (p :: ps)).1 = lineFor .notFound p :: (runPaths fs ps).1 ∧
    (runPaths fs (p :: ps)).2.1 = (p, .notFound) :: (runPaths fs ps).2.1 ∧
    (runPaths fs (p :: ps)).2.2 = (runPaths fs ps).2.2 := by
  refine ⟨?_, ?_, ?_⟩ <;> simp only [runPaths, h]

theorem c8_missing_skipped_witness :
    (runPaths (fun _ => none) ["missing.bridge"]).1 =
      lineFor .notFound "missing.bridge" :: (runPaths (fun _ => none) []).1 ∧
    (runPaths (fun _ => none) ["missing.bridge"]).2.1 =
      ("missing.bridge", .notFound) :: (runPaths (fun _ => none) []).2.1 ∧
    (runPaths (fun _ => none) ["missing.bridge"]).2.2 =
      (runPaths (fun _ => none) []).2.2 :=
  c8_missing_skipped (fun _ => none) "missing.bridge" [] rfl

/-- Claim C9: an existing file whose rewritten content equals the original
is reported `unchanged` and the file system is left untouched by its step;
consequently, when every listed path holds already-migrated content, the
driver reports `unchanged` for every file and the final file system equals
the initial one. -/
theorem c9_unchanged_no_write (fs : FS) :
    (∀ (p : String) (c : List Char) (ps : List String),
      fs p = some c → migrateText c = c →
      (runPaths fs (p :: ps)).1 = lineFor .unchanged p :: (runPaths fs ps).1 ∧
      (runPaths fs (p :: ps)).2.1 = (p, .unchanged) :: (runPaths fs ps).2.1 ∧
      (runPaths fs (p :: ps)).2.2 = (runPaths fs ps).2.2) ∧
    (∀ ps : List String,
      (∀ p ∈ ps, ∃ c, fs p = some c ∧ migrateText c = c) →
      (runPaths fs ps).2.1 = ps.map (fun p => (p, Outcome.unchanged)) ∧
      (runPaths fs ps).2.2 = fs ∧
      (runPaths fs ps).1 = ps.map (fun p => lineFor .unchanged p)) := by
  constructor
  · intro p c ps hp hc
    refine ⟨?_, ?_, ?_⟩ <;> simp only [runPaths, hp, if_pos hc]
  · intro ps h
    induction ps with
    | nil => exact ⟨rfl, rfl, rfl⟩
    | cons p ps ih =>
      obtain ⟨c, hp, hc⟩ := h p (List.mem_cons_self p ps)
      have ihr := ih (fun q hq => h q (List.mem_cons_of_mem p hq))
      refine ⟨?_, ?_, ?_⟩ <;> simp only [runPaths, hp, if_pos hc, List.map_cons]
      · exact congrArg ((p, Outcome.unchanged) :: ·) ihr.1
      · exact ihr.2.1
      · exact congrArg (lineFor .unchanged p :: ·) ihr.2.2

theorem c9_unchanged_no_write_witness :
    (runPaths (fun _ => some "version 1.4\n".data) ["test/property-search.bridge"]).2.1 =
      [("test/property-search.bridge", Outcome.unchanged)] ∧
    (runPaths (fun _ => some "version 1.4\n".data) ["test/property-search.bridge"]).2.2 =
      (fun _ => some "version 1.4\n".data) ∧
    (runPaths (fun _ => some "version 1.4\n".data) ["test/property-search.bridge"]).1 =
      [lineFor .unchanged "test/property-search.bridge"] :=
  (c9_unchanged_no_write (fun _ => some "version 1.4\n".data)).2
    ["test/property-search.bridge"]
    (fun p _ => ⟨"version 1.4\n".data, rfl, by decide⟩)

end Bridge
